import Mathlib

/-!
# Release-track orchestration of the android publisher bot

A shallow embedding of `main.go`: the four track mutators
(`addVersionCodeToPlayStoreTrack`, `changeUserFraction`,
`removeAllVersionCodesFromPlayStoreTrack`, `removeVersionCodeFromPlayStoreTracks`)
and the command procedures `doDeploy`, `doHalt`, `doPromote`, `doRollout`.

Conventions of the embedding

* The Go code works on `*androidpublisher.Track` pointers; the slice `tracks.Tracks`
  and the local variable `track` may alias.  The heap of track objects is explicit
  (`Run.listed`, `Run.fresh`) and a pointer is a `Ref`.
* Every call made to the remote store is appended to `Run.calls`; every chat message
  posted by `postSlackMessage` is appended to `Run.msgs`.
* The answers of the outside world during one command are a `Remote` value: which
  calls fail is an input of the model, so a theorem quantified over `Remote` covers
  every pattern of remote failures.
* `int64` version codes are `Int` (no arithmetic is performed on them);
  `float64` fractions are the rationals they denote, and the one floating-point
  computation of the program, `float64(userPercentage) / 100`, is rounded to
  binary64 explicitly (`roundBinary64`).
* The body of an update call is the value of the track object at the time of the
  call; how the client library serialises it is outside the program.
* The remote store is an external collaborator: `applyUpdate` and `storeAfter` give
  the tracks it holds after a session, keyed by track name, with the updates of a
  committed session applied in call order and an uncommitted session without effect.
* Environment variables are assumed present and chat posting is assumed to succeed
  (otherwise `log.Fatalf` ends the process before any further store call).
-/

namespace PublisherBot

/-! ## Data model -/

/-- The fields of `androidpublisher.Track` the program reads and writes. -/
structure Track where
  /-- Field `Track`: the name identifying the track. -/
  Track : String
  /-- Field `UserFraction` (a `float64`, here the rational it denotes). -/
  UserFraction : ℚ
  /-- Field `VersionCodes` (`[]int64`; a nil slice and an empty slice are both `[]`). -/
  VersionCodes : List Int
deriving DecidableEq

/-- The texts given to `postSlackMessage`, one constructor per format string of
`main.go`, with the formatted arguments (the `err` values are not modelled). -/
inductive Msg where
  /-- Text "Adding version code *%v* to track *%v*." -/
  | addingVersionCode (appVersionCode : Int) (track : String)
  /-- Text "Sorry, I cannot update the track: %v" -/
  | cannotUpdateTrack
  /-- Text "Changing user fraction for track *%v*." -/
  | changingUserFraction (track : String)
  /-- Text "Removing version code *%v* from track *%v*." -/
  | removingVersionCode (versionCode : Int) (track : String)
  /-- Text "Ok, deploying *%v* with version *%v* ..." -/
  | okDeploying (artifactId version : String)
  /-- Text "Ok, halting *%v* with version code *%v* ..." -/
  | okHalting (appId : String) (appVersionCode : Int)
  /-- Text "Ok, promoting *%v* with version code *%v* to track *%v* ..." -/
  | okPromoting (appId : String) (appVersionCode : Int) (playStoreTrack : String)
  /-- Text "Ok, rolling out *%v* with version code *%v* to *%v%%* ..." -/
  | okRollingOut (appId : String) (appVersionCode : Int) (userPercentage : Int)
  /-- Text "Version code *%v* already exists in track *%v*." -/
  | alreadyExists (appVersionCode : Int) (playStoreTrack : String)
  /-- Text "Sorry, I cannot create the publisher: %v" -/
  | cannotCreatePublisher
  /-- Text "Sorry, I cannot insert the edit: %v" -/
  | cannotInsertEdit
  /-- Text "Sorry, I cannot upload the APK: %v" -/
  | cannotUploadApk
  /-- Text "Sorry, I cannot list the tracks: %v" -/
  | cannotListTracks
  /-- Text "Sorry, I cannot commit the edit: %v" -/
  | cannotCommitEdit
  /-- Text "Done." -/
  | done
  /-- Text "Sorry, I cannot decode the credentials: %v" -/
  | cannotDecodeCredentials
  /-- Text "Sorry, I cannot parse the credentials: %v" -/
  | cannotParseCredentials
  /-- Text "Sorry, I cannot create the HTTP request: %v" -/
  | cannotCreateRequest
  /-- Text "Sorry, I cannot execute the HTTP request: %v" -/
  | cannotExecuteRequest
  /-- Text "Sorry, I didn't expect that HTTP status code: %v" -/
  | unexpectedStatusCode (statusCode : Int)
  /-- Text "Sorry, I cannot create the temporary file: %v" -/
  | cannotCreateTemporaryFile
  /-- Text "Sorry, I cannot write the temporary file: %v" -/
  | cannotWriteTemporaryFile
  /-- Text "Sorry, I cannot seek in the temporary file: %v" -/
  | cannotSeekTemporaryFile
  /-- Text "Sorry, I don't understand that version code." -/
  | dontUnderstandVersionCode
  /-- Text "Sorry, I don't understand that user percentage." -/
  | dontUnderstandUserPercentage
deriving DecidableEq

/-- One call made to the remote release-track store.  All calls of a command carry
the same application id and edit id, which are left out. -/
inductive Call where
  /-- Call `publisher.Edits.Insert(appId, nil).Do()`: open the edit session. -/
  | insert
  /-- Call `publisher.Edits.Apks.Upload(appId, edit.Id).Media(...).Do()`. -/
  | upload
  /-- Call `publisher.Edits.Tracks.List(appId, edit.Id).Do()`. -/
  | list
  /-- Call `publisher.Edits.Tracks.Update(appId, edit.Id, name, body).Do()`:
  `body` is the value of the track object at the time of the call. -/
  | update (name : String) (body : Track)
  /-- Call `publisher.Edits.Commit(appId, edit.Id).Do()`. -/
  | commit
deriving DecidableEq

/-- A `*androidpublisher.Track`: either the `i`-th element of `tracks.Tracks` or the
object synthesised by `&androidpublisher.Track {Track: name}`. -/
inductive Ref where
  | listed (i : Nat)
  | fresh
deriving DecidableEq

/-- The observable trace and the heap of one command execution. -/
structure Run where
  /-- Calls made to the store so far, oldest first. -/
  calls : List Call
  /-- Messages posted so far, oldest first. -/
  msgs : List Msg
  /-- The track objects the elements of `tracks.Tracks` point to. -/
  listed : List Track
  /-- The synthesised track object. -/
  fresh : Track

/-- Outcome of `loadAndroidPublisherCredentials`. -/
inductive Credentials where
  | ok
  | decodeFailed
  | parseFailed
deriving DecidableEq

/-- Outcome of `downloadMavenArtifact`. -/
inductive Download where
  | ok
  | requestFailed
  | executeFailed
  | badStatus (statusCode : Int)
  | temporaryFileFailed
  | writeFailed
  | seekFailed
deriving DecidableEq

/-- How the outside world answers during one command. -/
structure Remote where
  /-- Result of downloading the artifact (deploy only). -/
  download : Download
  /-- Result of loading the credentials. -/
  credentials : Credentials
  /-- Whether `androidpublisher.New` succeeds. -/
  publisher : Bool
  /-- Whether `Edits.Insert` succeeds. -/
  insert : Bool
  /-- Result of `Edits.Apks.Upload`: the version code of the uploaded APK on success. -/
  upload : Option Int
  /-- Whether `Edits.Tracks.List` succeeds. -/
  list : Bool
  /-- Whether the `k`-th (from 0) `Edits.Tracks.Update` call of the command succeeds. -/
  update : Nat → Bool
  /-- Whether `Edits.Commit` succeeds. -/
  commit : Bool

/-- Every remote call a halt, promote or rollout command can make succeeds. -/
def Remote.AllSucceed (r : Remote) : Prop :=
  r.credentials = Credentials.ok ∧ r.publisher = true ∧ r.insert = true ∧
    r.list = true ∧ (∀ k, r.update k = true) ∧ r.commit = true

/-- The state in which every command starts: nothing called, nothing posted. -/
def Run.init : Run :=
  { calls := [], msgs := [], listed := [], fresh := ⟨"", 0, []⟩ }

/-- Read the track object a pointer refers to. -/
def Run.deref (s : Run) : Ref → Track
  | Ref.listed i => s.listed.getD i ⟨"", 0, []⟩
  | Ref.fresh => s.fresh

/-- Overwrite the track object a pointer refers to. -/
def Run.assign (s : Run) (ref : Ref) (t : Track) : Run :=
  match ref with
  | Ref.listed i => { s with listed := s.listed.set i t }
  | Ref.fresh => { s with fresh := t }

/-- The slice `tracks.Tracks` right after listing: one pointer per listed track
object, in order. -/
def Run.tracks (s : Run) : List Ref :=
  (List.range s.listed.length).map Ref.listed

/-- Function `postSlackMessage`, with posting assumed to succeed. -/
def postSlackMessage (s : Run) (m : Msg) : Run :=
  { s with msgs := s.msgs ++ [m] }

/-- Record a call to the store. -/
def Run.call (s : Run) (c : Call) : Run :=
  { s with calls := s.calls ++ [c] }

/-- Whether a call is a track update. -/
def Call.isUpdate : Call → Bool
  | Call.update _ _ => true
  | _ => false

/-- Number of track update calls among `calls`. -/
def updateCount (calls : List Call) : Nat :=
  (calls.filter Call.isUpdate).length

/-- Expression `publisher.Edits.Tracks.Update(appId, edit.Id, track.Track, track).Do()`:
records the call with the current value of the track object and returns whether
`err == nil`. -/
def tracksUpdate (r : Remote) (s : Run) (track : Ref) : Bool × Run :=
  let t := s.deref track
  (r.update (updateCount s.calls), s.call (Call.update t.Track t))

/-! ## Binary64 arithmetic -/

/-- Nearest natural number to `a / b` (with `0 < b`), ties to the even one. -/
def roundHalfEven (a b : Nat) : Nat :=
  let q := a / b
  let r := a % b
  if 2 * r < b then q
  else if b < 2 * r then q + 1
  else if q % 2 = 0 then q else q + 1

/-- Number of binary digits of `n`, computed by halving at most `fuel` times. -/
def bitLength : Nat → Nat → Nat
  | 0, _ => 0
  | fuel + 1, n => if n = 0 then 0 else bitLength fuel (n / 2) + 1

/-- The integer `l` with `2 ^ l ≤ n / d < 2 ^ (l + 1)`, for `0 < n` and `0 < d`. -/
def floorLog2 (n d : Nat) : Int :=
  let k : Int := (bitLength n n : Int) - (bitLength d d : Int)
  if 0 ≤ k then (if d * 2 ^ k.toNat ≤ n then k else k - 1)
  else (if d ≤ n * 2 ^ (-k).toNat then k else k - 1)

/-- A finite binary64 number, `mantissa * 2 ^ exponent`. -/
structure Binary64 where
  mantissa : Int
  exponent : Int
deriving DecidableEq

/-- The rational a binary64 number denotes. -/
def Binary64.toRat (x : Binary64) : ℚ :=
  (x.mantissa : ℚ) * (2 : ℚ) ^ x.exponent

/-- Round the rational `num / den` (with `0 < den`) to the nearest IEEE-754 binary64
number, ties to even: a 53-bit significand, least exponent `-1074`.  Overflow to an
infinity is not modelled: the arguments arising here are an `int` and an `int`
divided by 100. -/
def roundBinary64 (num : Int) (den : Nat) : Binary64 :=
  if num = 0 then ⟨0, 0⟩ else
    let n := num.natAbs
    let e : Int := if floorLog2 n den - 52 < -1074 then -1074 else floorLog2 n den - 52
    let m : Nat :=
      if 0 ≤ e then roundHalfEven n (den * 2 ^ e.toNat)
      else roundHalfEven (n * 2 ^ (-e).toNat) den
    ⟨if num < 0 then -(m : Int) else (m : Int), e⟩

/-- Conversion `float64(i)` of an integer. -/
def float64OfInt (i : Int) : Binary64 :=
  roundBinary64 i 1

/-- Binary64 division `x / y` by a positive `y`. -/
def Binary64.div (x y : Binary64) : Binary64 :=
  if y.exponent ≤ x.exponent then
    roundBinary64 (x.mantissa * 2 ^ (x.exponent - y.exponent).toNat) y.mantissa.natAbs
  else
    roundBinary64 x.mantissa (y.mantissa.natAbs * 2 ^ (y.exponent - x.exponent).toNat)

/-- Expression `float64(userPercentage) / 100` of `doRollout`: the conversion of the
`int` and the division by the constant are each rounded to binary64. -/
def userFractionOf (userPercentage : Int) : ℚ :=
  ((float64OfInt userPercentage).div ⟨100, 0⟩).toRat

/-! ## Track mutators -/

/-- Function `addVersionCodeToPlayStoreTrack`. -/
def addVersionCodeToPlayStoreTrack (r : Remote) (s : Run) (track : Ref)
    (appVersionCode : Int) (userFraction : ℚ) : Bool × Run :=
  let s := postSlackMessage s (Msg.addingVersionCode appVersionCode (s.deref track).Track)
  let s := s.assign track { s.deref track with UserFraction := userFraction }
  let s := s.assign track
    { s.deref track with VersionCodes := (s.deref track).VersionCodes ++ [appVersionCode] }
  let res := tracksUpdate r s track
  if res.1 then (true, res.2) else (false, postSlackMessage res.2 Msg.cannotUpdateTrack)

/-- Function `changeUserFraction`. -/
def changeUserFraction (r : Remote) (s : Run) (track : Ref) (userFraction : ℚ) :
    Bool × Run :=
  let s := postSlackMessage s (Msg.changingUserFraction (s.deref track).Track)
  let s := s.assign track { s.deref track with UserFraction := userFraction }
  let res := tracksUpdate r s track
  if res.1 then (true, res.2) else (false, postSlackMessage res.2 Msg.cannotUpdateTrack)

/-- Function `removeAllVersionCodesFromPlayStoreTrack`. -/
def removeAllVersionCodesFromPlayStoreTrack (r : Remote) (s : Run) (track : Ref) :
    Bool × Run :=
  let s := (s.deref track).VersionCodes.foldl
    (fun s versionCode =>
      postSlackMessage s (Msg.removingVersionCode versionCode (s.deref track).Track)) s
  let s := s.assign track { s.deref track with VersionCodes := [] }
  let res := tracksUpdate r s track
  if res.1 then (true, res.2) else (false, postSlackMessage res.2 Msg.cannotUpdateTrack)

/-- The inner loop of `removeVersionCodeFromPlayStoreTracks` over `track.VersionCodes`:
a candidate equal to `appVersionCode` is announced, any other is appended to
`appVersionCodes` (the second component). -/
def removeScan (appVersionCode : Int) (trackName : String) (versionCodes : List Int)
    (s : Run) : Run × List Int :=
  versionCodes.foldl
    (fun acc candidate =>
      if candidate = appVersionCode then
        (postSlackMessage acc.1 (Msg.removingVersionCode candidate trackName), acc.2)
      else (acc.1, acc.2 ++ [candidate]))
    (s, [])

/-- Function `removeVersionCodeFromPlayStoreTracks`: the outer loop over `tracks`. -/
def removeVersionCodeFromPlayStoreTracks (r : Remote) (appVersionCode : Int) :
    List Ref → Run → Bool × Run
  | [], s => (true, s)
  | track :: rest, s =>
    let scan := removeScan appVersionCode (s.deref track).Track (s.deref track).VersionCodes s
    let s := scan.1.assign track { scan.1.deref track with VersionCodes := scan.2 }
    let res := tracksUpdate r s track
    if res.1 then removeVersionCodeFromPlayStoreTracks r appVersionCode rest res.2
    else (false, postSlackMessage res.2 Msg.cannotUpdateTrack)

/-! ## Command procedures -/

/-- Function `loadAndroidPublisherCredentials`: `none` stands for a nil result. -/
def loadAndroidPublisherCredentials (r : Remote) (s : Run) : Option Unit × Run :=
  match r.credentials with
  | Credentials.decodeFailed => (none, postSlackMessage s Msg.cannotDecodeCredentials)
  | Credentials.parseFailed => (none, postSlackMessage s Msg.cannotParseCredentials)
  | Credentials.ok => (some (), s)

/-- Function `downloadMavenArtifact`: `none` stands for a nil result. -/
def downloadMavenArtifact (r : Remote) (s : Run) : Option Unit × Run :=
  match r.download with
  | Download.requestFailed => (none, postSlackMessage s Msg.cannotCreateRequest)
  | Download.executeFailed => (none, postSlackMessage s Msg.cannotExecuteRequest)
  | Download.badStatus c => (none, postSlackMessage s (Msg.unexpectedStatusCode c))
  | Download.temporaryFileFailed => (none, postSlackMessage s Msg.cannotCreateTemporaryFile)
  | Download.writeFailed => (none, postSlackMessage s Msg.cannotWriteTemporaryFile)
  | Download.seekFailed => (none, postSlackMessage s Msg.cannotSeekTemporaryFile)
  | Download.ok => (some (), s)

/-- The lookup loop repeated in `doDeploy`, `doPromote` and `doRollout`:
`track := &androidpublisher.Track {Track: name}` followed by
`for _, candidate := range tracks.Tracks { if candidate.Track == name { track = candidate } }`.
Returns the heap holding the synthesised object together with the chosen pointer. -/
def selectTrack (s : Run) (tracks : List Ref) (name : String) : Run × Ref :=
  let s := { s with fresh := ⟨name, 0, []⟩ }
  (s, tracks.foldl
    (fun track candidate => if (s.deref candidate).Track = name then candidate else track)
    Ref.fresh)

/-- The tail shared by the four commands: `Edits.Commit`, then "Done." on success. -/
def commitEdit (r : Remote) (s : Run) : Run :=
  let s := s.call Call.commit
  if r.commit then postSlackMessage s Msg.done
  else postSlackMessage s Msg.cannotCommitEdit

/-- Function `doDeploy`; `store` is what `Edits.Tracks.List` returns on success. -/
def doDeploy (r : Remote) (store : List Track) (artifactId version : String) : Run :=
  let s := postSlackMessage Run.init (Msg.okDeploying artifactId version)
  let artifactFile := downloadMavenArtifact r s
  if artifactFile.1.isNone then artifactFile.2 else
  let credentials := loadAndroidPublisherCredentials r artifactFile.2
  if credentials.1.isNone then credentials.2 else
  let s := credentials.2
  if !r.publisher then postSlackMessage s Msg.cannotCreatePublisher else
  let s := s.call Call.insert
  if !r.insert then postSlackMessage s Msg.cannotInsertEdit else
  let s := s.call Call.upload
  match r.upload with
  | none => postSlackMessage s Msg.cannotUploadApk
  | some apkVersionCode =>
  let s := s.call Call.list
  if !r.list then postSlackMessage s Msg.cannotListTracks else
  let s := { s with listed := store }
  let tracks := s.tracks
  let sel := selectTrack s tracks "internal"
  let track := sel.2
  let removed := removeAllVersionCodesFromPlayStoreTrack r sel.1 track
  if !removed.1 then removed.2 else
  let added := addVersionCodeToPlayStoreTrack r removed.2 track apkVersionCode 0
  if !added.1 then added.2 else
  commitEdit r added.2

/-- Function `doHalt`; `store` is what `Edits.Tracks.List` returns on success. -/
def doHalt (r : Remote) (store : List Track) (appId : String) (appVersionCode : Int) : Run :=
  let s := postSlackMessage Run.init (Msg.okHalting appId appVersionCode)
  let credentials := loadAndroidPublisherCredentials r s
  if credentials.1.isNone then credentials.2 else
  let s := credentials.2
  if !r.publisher then postSlackMessage s Msg.cannotCreatePublisher else
  let s := s.call Call.insert
  if !r.insert then postSlackMessage s Msg.cannotInsertEdit else
  let s := s.call Call.list
  if !r.list then postSlackMessage s Msg.cannotListTracks else
  let s := { s with listed := store }
  let tracks := s.tracks
  let removed := removeVersionCodeFromPlayStoreTracks r appVersionCode tracks s
  if !removed.1 then removed.2 else
  commitEdit r removed.2

/-- Function `doPromote`; `store` is what `Edits.Tracks.List` returns on success. -/
def doPromote (r : Remote) (store : List Track) (appId : String) (appVersionCode : Int)
    (playStoreTrack : String) : Run :=
  let s := postSlackMessage Run.init (Msg.okPromoting appId appVersionCode playStoreTrack)
  let credentials := loadAndroidPublisherCredentials r s
  if credentials.1.isNone then credentials.2 else
  let s := credentials.2
  if !r.publisher then postSlackMessage s Msg.cannotCreatePublisher else
  let s := s.call Call.insert
  if !r.insert then postSlackMessage s Msg.cannotInsertEdit else
  let s := s.call Call.list
  if !r.list then postSlackMessage s Msg.cannotListTracks else
  let s := { s with listed := store }
  let tracks := s.tracks
  let sel := selectTrack s tracks playStoreTrack
  let s := sel.1
  let track := sel.2
  if (s.deref track).VersionCodes.any (fun candidate => candidate = appVersionCode) then
    postSlackMessage s (Msg.alreadyExists appVersionCode playStoreTrack)
  else
  let cleared := removeAllVersionCodesFromPlayStoreTrack r s track
  if !cleared.1 then cleared.2 else
  let removed := removeVersionCodeFromPlayStoreTracks r appVersionCode tracks cleared.2
  if !removed.1 then removed.2 else
  let added := addVersionCodeToPlayStoreTrack r removed.2 track appVersionCode 0
  if !added.1 then added.2 else
  commitEdit r added.2

/-- Function `doRollout`; `store` is what `Edits.Tracks.List` returns on success. -/
def doRollout (r : Remote) (store : List Track) (appId : String) (appVersionCode : Int)
    (userPercentage : Int) : Run :=
  let s := postSlackMessage Run.init (Msg.okRollingOut appId appVersionCode userPercentage)
  let credentials := loadAndroidPublisherCredentials r s
  if credentials.1.isNone then credentials.2 else
  let s := credentials.2
  if !r.publisher then postSlackMessage s Msg.cannotCreatePublisher else
  let s := s.call Call.insert
  if !r.insert then postSlackMessage s Msg.cannotInsertEdit else
  let s := s.call Call.list
  if !r.list then postSlackMessage s Msg.cannotListTracks else
  let s := { s with listed := store }
  let tracks := s.tracks
  let sel := selectTrack s tracks "rollout"
  let s := sel.1
  let track := sel.2
  let exists_ := (s.deref track).VersionCodes.foldl
    (fun found candidate => if candidate = appVersionCode then true else found) false
  let userFraction := userFractionOf userPercentage
  if !exists_ then
    let cleared := removeAllVersionCodesFromPlayStoreTrack r s track
    if !cleared.1 then cleared.2 else
    let removed := removeVersionCodeFromPlayStoreTracks r appVersionCode tracks cleared.2
    if !removed.1 then removed.2 else
    let added := addVersionCodeToPlayStoreTrack r removed.2 track appVersionCode userFraction
    if !added.1 then added.2 else
    commitEdit r added.2
  else
    let changed := changeUserFraction r s track userFraction
    if !changed.1 then changed.2 else
    commitEdit r changed.2

/-! ## Command dispatch -/

/-- The intents `handleSlackMessage` dispatches to a store-mutating procedure. -/
inductive Command where
  | deploy (artifactId version : String)
  | halt (appId : String) (appVersionCode : Int)
  | promote (appId : String) (appVersionCode : Int) (playStoreTrack : String)
  | rollout (appId : String) (appVersionCode : Int) (userPercentage : Int)

/-- Run the procedure of a command against the tracks the store lists. -/
def Command.run (r : Remote) (store : List Track) : Command → Run
  | Command.deploy artifactId version => doDeploy r store artifactId version
  | Command.halt appId appVersionCode => doHalt r store appId appVersionCode
  | Command.promote appId appVersionCode playStoreTrack =>
    doPromote r store appId appVersionCode playStoreTrack
  | Command.rollout appId appVersionCode userPercentage =>
    doRollout r store appId appVersionCode userPercentage

/-- Whether a command is a promote or a rollout. -/
def Command.isPromoteOrRollout : Command → Bool
  | Command.promote _ _ _ => true
  | Command.rollout _ _ _ => true
  | _ => false

/-- The digits of an unsigned base-10 numeral, most significant first; `none` when
the text is empty or holds another character. -/
def parseDigits : List Char → Option Nat
  | [] => none
  | cs => cs.foldl
      (fun acc c =>
        match acc with
        | none => none
        | some n => if c.isDigit then some (n * 10 + (c.toNat - 48)) else none)
      (some 0)

/-- Function `strconv.ParseInt(s, 10, 64)`: an optional sign, then base-10 digits;
`none` stands for a non-nil `err` (syntax or range). -/
def parseInt64 (s : String) : Option Int :=
  let signed : Bool × List Char :=
    match s.toList with
    | '+' :: rest => (false, rest)
    | '-' :: rest => (true, rest)
    | cs => (false, cs)
  match parseDigits signed.2 with
  | none => none
  | some n =>
    if signed.1 then (if n ≤ 2 ^ 63 then some (-(n : Int)) else none)
    else (if n < 2 ^ 63 then some (n : Int) else none)

/-- Function `strconv.Atoi` where `int` is 64 bits wide: the same language and range
as `strconv.ParseInt(s, 10, 64)`. -/
def atoi (s : String) : Option Int :=
  parseInt64 s

/-- The rollout branch of `handleSlackMessage` after the regular expression has
matched: `command1`, `command2`, `command3` are the three captured groups. -/
def handleRollout (r : Remote) (store : List Track) (command1 command2 command3 : String) :
    Run :=
  match parseInt64 command2 with
  | none => postSlackMessage Run.init Msg.dontUnderstandVersionCode
  | some appVersionCode =>
    match atoi command3 with
    | none => postSlackMessage Run.init Msg.dontUnderstandUserPercentage
    | some userPercentage => doRollout r store command1 appVersionCode userPercentage

/-! ## The remote store -/

/-- Effect of `Update(name, body)` on the draft of an edit session (the store is an
external collaborator; tracks are keyed by name): the track called `name` takes the
state sent in `body`, and a name the draft does not hold yet is added at the end. -/
def applyUpdate (store : List Track) (name : String) (body : Track) : List Track :=
  if store.any (fun t => t.Track = name) then
    store.map (fun t => if t.Track = name then body else t)
  else store ++ [body]

/-- Effect of one recorded call on the draft: only updates change tracks. -/
def applyCall (store : List Track) : Call → List Track
  | Call.update name body => applyUpdate store name body
  | _ => store

/-- Whether the run committed its edit session: the commit call was made and
succeeded. -/
def committed (r : Remote) (run : Run) : Bool :=
  run.calls.contains Call.commit && r.commit

/-- The tracks of the store after a command: the draft built by the recorded calls
when the session was committed, the tracks listed at its start otherwise (an edit
never committed has no effect). -/
def storeAfter (r : Remote) (store : List Track) (run : Run) : List Track :=
  if committed r run then run.calls.foldl applyCall store else store

/-- A remote on which everything succeeds. -/
def Remote.allOk : Remote :=
  { download := Download.ok, credentials := Credentials.ok, publisher := true,
    insert := true, upload := some 1, list := true, update := fun _ => true,
    commit := true }

/-! ## Vocabulary of the properties -/

/-- A track with every occurrence of `appVersionCode` taken out of its version
codes, the other members in their order, the name and the fraction as they were. -/
def purgeTrack (appVersionCode : Int) (t : Track) : Track :=
  { t with VersionCodes := t.VersionCodes.filter (fun c => decide (c ≠ appVersionCode)) }

/-- The update call that sends a track with `appVersionCode` taken out. -/
def purgeCall (appVersionCode : Int) (t : Track) : Call :=
  Call.update t.Track (purgeTrack appVersionCode t)

/-- The track names of a snapshot are pairwise distinct. -/
def NamesDistinct (store : List Track) : Prop :=
  (store.map Track.Track).Nodup

/-- Every version code is a member of at most one track of the snapshot. -/
def Exclusive (store : List Track) : Prop :=
  store.Pairwise (fun a b => ∀ c, c ∈ a.VersionCodes → c ∉ b.VersionCodes)

/-- A pointer refers to an existing track object of the heap. -/
def Run.Valid (s : Run) : Ref → Prop
  | Ref.listed i => i < s.listed.length
  | Ref.fresh => True

/-- The store after a sequence of commands, each run under its own remote answers
against the tracks left by the commands before it. -/
def runAll (steps : List (Remote × Command)) (store : List Track) : List Track :=
  steps.foldl (fun st step => storeAfter step.1 st (step.2.run step.1 st)) store

/-- A binary64 number that lies between 0 and 1, decided on its integer fields. -/
def Binary64.inUnit (x : Binary64) : Bool :=
  decide (0 ≤ x.mantissa) && decide (x.exponent ≤ 0) &&
    decide (x.mantissa ≤ 2 ^ (-x.exponent).toNat)

/-- The run has not called commit. -/
def NoCommit (s : Run) : Prop :=
  Call.commit ∉ s.calls

/-- Every track update the run has made so far succeeded. -/
def UpdatesOk (r : Remote) (s : Run) : Prop :=
  ∀ k, k < updateCount s.calls → r.update k = true

/-- The shape of the trace of a finished command: either commit was never called, or
it is the last call, it follows a successful listing and every update before it
succeeded. -/
def Atomic (r : Remote) (run : Run) : Prop :=
  NoCommit run ∨ (∃ pre, run.calls = pre ++ [Call.commit] ∧ Call.commit ∉ pre ∧ r.list = true ∧
    ∀ k, k < updateCount pre → r.update k = true)

/-- What a mutator started in `s` may do to the trace: it never commits, and when it
reports success the updates it made succeeded. -/
def Step (r : Remote) (s : Run) (res : Bool × Run) : Prop :=
  (NoCommit s → NoCommit res.2) ∧ (res.1 = true → UpdatesOk r s → UpdatesOk r res.2)

/-- The tracks the promote and rollout postconditions describe: the track called
`name` holds exactly `appVersionCode` with fraction `userFraction` (it is added at
the end when the snapshot has no track of that name), and every other track is as it
was with `appVersionCode` taken out. -/
def moved (store : List Track) (name : String) (appVersionCode : Int) (userFraction : ℚ) :
    List Track :=
  store.map (fun t => if t.Track = name then ⟨name, userFraction, [appVersionCode]⟩
    else purgeTrack appVersionCode t) ++
    (if store.any (fun t => t.Track = name) then [] else [⟨name, userFraction, [appVersionCode]⟩])

/-- Two tracks have different names and share no version code. -/
def Apart (a b : Track) : Prop :=
  a.Track ≠ b.Track ∧ ∀ c, c ∈ a.VersionCodes → c ∉ b.VersionCodes

/-- The fraction of a track lies between 0 and 1. -/
def FractionInUnit (t : Track) : Prop :=
  0 ≤ t.UserFraction ∧ t.UserFraction ≤ 1

/-- Every track object of the heap and every track sent to the store so far has its
fraction between 0 and 1. -/
def FractionsOk (s : Run) : Prop :=
  (∀ t ∈ s.listed, FractionInUnit t) ∧ FractionInUnit s.fresh ∧
    ∀ name body, Call.update name body ∈ s.calls → FractionInUnit body

/-! ## Basic facts about the trace and the heap -/

@[simp]
theorem postSlackMessage_calls (s : Run) (m : Msg) : (postSlackMessage s m).calls = s.calls := rfl
@[simp]
theorem postSlackMessage_listed (s :
    Run) (m : Msg) : (postSlackMessage s m).listed = s.listed :=
  rfl
@[simp]
theorem postSlackMessage_fresh (s : Run) (m : Msg) : (postSlackMessage s m).fresh = s.fresh := rfl
@[simp]
theorem postSlackMessage_msgs (s :
    Run) (m : Msg) : (postSlackMessage s m).msgs = s.msgs ++ [m] :=
  rfl
@[simp]
theorem postSlackMessage_deref (s : Run) (m : Msg) (ref : Ref) :
    (postSlackMessage s m).deref ref = s.deref ref := by
  cases ref <;> rfl
@[simp]
theorem call_calls (s : Run) (c : Call) : (s.call c).calls = s.calls ++ [c] := rfl
@[simp]
theorem call_listed (s : Run) (c : Call) : (s.call c).listed = s.listed := rfl
@[simp]
theorem call_fresh (s : Run) (c : Call) : (s.call c).fresh = s.fresh := rfl
@[simp]
theorem call_msgs (s : Run) (c : Call) : (s.call c).msgs = s.msgs := rfl
@[simp]
theorem assign_calls (s : Run) (ref : Ref) (t : Track) : (s.assign ref t).calls = s.calls := by
  cases ref <;> rfl
@[simp]
theorem assign_msgs (s : Run) (ref : Ref) (t : Track) : (s.assign ref t).msgs = s.msgs := by
  cases ref <;> rfl
@[simp]
theorem assign_listed_length (s : Run) (ref : Ref) (t : Track) :
    (s.assign ref t).listed.length = s.listed.length := by
  cases ref <;> simp [Run.assign]
theorem deref_assign (s : Run) (ref : Ref) (t : Track) (h : s.Valid ref) :
    (s.assign ref t).deref ref = t := by
  cases ref with
  | listed i => simp [Run.assign, Run.deref, Run.Valid] at *; simp [List.getD, h]
  | fresh => rfl
theorem assign_assign (s : Run) (ref : Ref) (t u : Track) :
    (s.assign ref t).assign ref u = s.assign ref u := by
  cases ref with
  | listed i => simp [Run.assign]
  | fresh => rfl

theorem foldl_post_calls (track : Ref) (cs : List Int) (s : Run) :
    let s2 := cs.foldl (fun s versionCode =>
      postSlackMessage s (Msg.removingVersionCode versionCode (s.deref track).Track)) s
    s2.calls = s.calls ∧ s2.listed = s.listed ∧ s2.fresh = s.fresh := by
  induction cs generalizing s with
  | nil => simp
  | cons c cs ih =>
    simp only [List.foldl_cons]
    have := ih (postSlackMessage s (Msg.removingVersionCode c (s.deref track).Track))
    simpa using this



theorem updateCount_append (a b :
    List Call) : updateCount (a ++ b) = updateCount a + updateCount b :=
  by
  simp [updateCount]

theorem tracksUpdate_fst (r : Remote) (s : Run) (track : Ref) :
    (tracksUpdate r s track).1 = r.update (updateCount s.calls) := rfl
theorem tracksUpdate_snd (r : Remote) (s : Run) (track : Ref) :
    (tracksUpdate r s track).2 = s.call (Call.update (s.deref track).Track (s.deref track)) := rfl


theorem step_update (r : Remote) (s0 s : Run) (track : Ref) (h : s.calls = s0.calls) :
    Step r s0 (if (tracksUpdate r s track).1 then (true, (tracksUpdate r s track).2)
      else (false, postSlackMessage (tracksUpdate r s track).2 Msg.cannotUpdateTrack)) := by
  rw [tracksUpdate_fst, tracksUpdate_snd]
  constructor
  · intro hn
    split <;> simp [NoCommit, h] at * <;> exact hn
  · split
    · rename_i hu
      intro _ hok k hk
      simp [h, updateCount_append, updateCount, Call.isUpdate] at hk
      rcases Nat.lt_succ_iff_lt_or_eq.mp hk with hk | hk
      · exact hok k (by simpa [updateCount] using hk)
      · rw [hk]; simpa [h, updateCount] using hu
    · intro h; simp at h

theorem removeAll_step (r : Remote) (s : Run) (track : Ref) :
    Step r s (removeAllVersionCodesFromPlayStoreTrack r s track) := by
  unfold removeAllVersionCodesFromPlayStoreTrack
  apply step_update
  simp [(foldl_post_calls track _ s).1]

theorem add_step (r : Remote) (s : Run) (track : Ref) (v : Int) (f : ℚ) :
    Step r s (addVersionCodeToPlayStoreTrack r s track v f) := by
  unfold addVersionCodeToPlayStoreTrack
  apply step_update
  simp

theorem change_step (r : Remote) (s : Run) (track : Ref) (f : ℚ) :
    Step r s (changeUserFraction r s track f) := by
  unfold changeUserFraction
  apply step_update
  simp

theorem removeScan_frame (v : Int) (name : String) (cs : List Int) (s : Run) (acc : List Int) :
    let res := cs.foldl
      (fun acc candidate =>
        if candidate = v then
          (postSlackMessage acc.1 (Msg.removingVersionCode candidate name), acc.2)
        else (acc.1, acc.2 ++ [candidate]))
      (s, acc)
    res.1.calls = s.calls ∧ res.1.listed = s.listed ∧ res.1.fresh = s.fresh ∧
      res.2 = acc ++ cs.filter (fun c => decide (c ≠ v)) := by
  induction cs generalizing s acc with
  | nil => simp
  | cons c cs ih =>
    simp only [List.foldl_cons]
    by_cases hc : c = v
    · have := ih (postSlackMessage s (Msg.removingVersionCode c name)) acc
      simpa [hc] using this
    · have := ih s (acc ++ [c])
      simpa [hc] using this

theorem removeScan_spec (v : Int) (name : String) (cs : List Int) (s : Run) :
    (removeScan v name cs s).1.calls = s.calls ∧ (removeScan v name cs s).1.listed = s.listed ∧
      (removeScan v name cs s).1.fresh = s.fresh ∧
      (removeScan v name cs s).2 = cs.filter (fun c => decide (c ≠ v)) := by
  have := removeScan_frame v name cs s []
  simpa [removeScan] using this

theorem step_trans (r : Remote) (s0 s1 : Run) (res : Bool × Run)
    (h1 : Step r s0 (true, s1)) (h2 : Step r s1 res) : Step r s0 res :=
  ⟨fun hn => h2.1 (h1.1 hn), fun ht hok => h2.2 ht (h1.2 rfl hok)⟩

theorem purge_step (r : Remote) (v : Int) (refs : List Ref) (s : Run) :
    Step r s (removeVersionCodeFromPlayStoreTracks r v refs s) := by
  induction refs generalizing s with
  | nil => exact ⟨fun h => h, fun _ h => h⟩
  | cons track rest ih =>
    rw [removeVersionCodeFromPlayStoreTracks]
    simp only []
    have hu := step_update r s
      ((removeScan v (s.deref track).Track (s.deref track).VersionCodes s).1.assign track
        { (removeScan v (s.deref track).Track (s.deref track).VersionCodes s).1.deref track with
          VersionCodes := (removeScan v (s.deref track).Track (s.deref track).VersionCodes s).2 })
      track (by simp [(removeScan_spec v _ _ s).1])
    split
    · rename_i hok
      rw [if_pos hok] at hu
      exact step_trans r s _ _ hu (ih _)
    · rename_i hok
      rw [if_neg hok] at hu
      exact hu


theorem commitEdit_atomic (r : Remote) (s : Run) (hn : NoCommit s) (hu : UpdatesOk r s)
    (hl : r.list = true) : Atomic r (commitEdit r s) := by
  refine Or.inr ⟨s.calls, ?_, hn, hl, hu⟩
  unfold commitEdit
  split <;> simp

theorem mutate_next (r : Remote) (s : Run) (res : Bool × Run) (body : Run)
    (hs : Step r s res) (hn : NoCommit s) (hu : UpdatesOk r s)
    (hk : NoCommit res.2 → UpdatesOk r res.2 → Atomic r body) :
    Atomic r (if (!res.1) = true then res.2 else body) := by
  cases h : res.1 with
  | false => simpa using Or.inl (hs.1 hn)
  | true => simpa using hk (hs.1 hn) (hs.2 h hu)

theorem doHalt_atomic (r : Remote) (store : List Track) (appId : String) (v : Int) :
    Atomic r (doHalt r store appId v) := by
  unfold doHalt loadAndroidPublisherCredentials
  cases hc : r.credentials <;> simp only [Option.isNone, Bool.false_eq_true, if_false, if_true]
  · split
    · exact Or.inl (by simp [NoCommit, Run.init])
    split
    · exact Or.inl (by simp [NoCommit, Run.init])
    split
    · exact Or.inl (by simp [NoCommit, Run.init])
    rename_i hl
    apply mutate_next r _ _ _ (purge_step r v _ _)
    · simp [NoCommit, Run.init]
    · intro k hk; simp [updateCount, Run.init, Call.isUpdate] at hk
    · intro hn hu; exact commitEdit_atomic r _ hn hu (by simpa using hl)
  · exact Or.inl (by simp [NoCommit, Run.init])
  · exact Or.inl (by simp [NoCommit, Run.init])


theorem updatesOk_of_none (r : Remote) (s : Run) (h : updateCount s.calls = 0) : UpdatesOk r s := by
  intro k hk
  rw [h] at hk
  exact absurd hk (Nat.not_lt_zero k)

theorem doPromote_atomic (r : Remote) (store : List Track) (appId : String) (v : Int)
    (playStoreTrack : String) : Atomic r (doPromote r store appId v playStoreTrack) := by
  unfold doPromote loadAndroidPublisherCredentials
  cases hc : r.credentials <;> simp only [Option.isNone, Bool.false_eq_true, if_false, if_true]
  · split
    · exact Or.inl (by simp [NoCommit, Run.init])
    split
    · exact Or.inl (by simp [NoCommit, Run.init])
    split
    · exact Or.inl (by simp [NoCommit, Run.init])
    rename_i hl
    split
    · exact Or.inl (by simp [NoCommit, Run.init, selectTrack])
    apply mutate_next r _ _ _ (removeAll_step r _ _)
    · simp [NoCommit, Run.init, selectTrack]
    · exact updatesOk_of_none r _ (by simp [updateCount, Run.init, selectTrack, Call.isUpdate])
    intro hn1 hu1
    apply mutate_next r _ _ _ (purge_step r v _ _) hn1 hu1
    intro hn2 hu2
    apply mutate_next r _ _ _ (add_step r _ _ _ _) hn2 hu2
    intro hn3 hu3
    exact commitEdit_atomic r _ hn3 hu3 (by simpa using hl)
  · exact Or.inl (by simp [NoCommit, Run.init])
  · exact Or.inl (by simp [NoCommit, Run.init])

theorem doRollout_atomic (r : Remote) (store : List Track) (appId : String) (v : Int)
    (userPercentage : Int) : Atomic r (doRollout r store appId v userPercentage) := by
  unfold doRollout loadAndroidPublisherCredentials
  cases hc : r.credentials <;> simp only [Option.isNone, Bool.false_eq_true, if_false, if_true]
  · split
    · exact Or.inl (by simp [NoCommit, Run.init])
    split
    · exact Or.inl (by simp [NoCommit, Run.init])
    split
    · exact Or.inl (by simp [NoCommit, Run.init])
    rename_i hl
    have hn0 : NoCommit (selectTrack
        { ((postSlackMessage Run.init (Msg.okRollingOut appId v userPercentage)).call
            Call.insert).call Call.list with listed := store }
        (Run.tracks { ((postSlackMessage Run.init (Msg.okRollingOut appId v userPercentage)).call
            Call.insert).call Call.list with listed := store }) "rollout").1 := by
      simp [NoCommit, Run.init, selectTrack]
    have hu0 : UpdatesOk r (selectTrack
        { ((postSlackMessage Run.init (Msg.okRollingOut appId v userPercentage)).call
            Call.insert).call Call.list with listed := store }
        (Run.tracks { ((postSlackMessage Run.init (Msg.okRollingOut appId v userPercentage)).call
            Call.insert).call Call.list with listed := store }) "rollout").1 :=
      updatesOk_of_none r _ (by simp [updateCount, Run.init, selectTrack, Call.isUpdate])
    split
    · apply mutate_next r _ _ _ (removeAll_step r _ _) hn0 hu0
      intro hn1 hu1
      apply mutate_next r _ _ _ (purge_step r v _ _) hn1 hu1
      intro hn2 hu2
      apply mutate_next r _ _ _ (add_step r _ _ _ _) hn2 hu2
      intro hn3 hu3
      exact commitEdit_atomic r _ hn3 hu3 (by simpa using hl)
    · apply mutate_next r _ _ _ (change_step r _ _ _) hn0 hu0
      intro hn1 hu1
      exact commitEdit_atomic r _ hn1 hu1 (by simpa using hl)
  · exact Or.inl (by simp [NoCommit, Run.init])
  · exact Or.inl (by simp [NoCommit, Run.init])

theorem doDeploy_atomic (r : Remote) (store : List Track) (artifactId version : String) :
    Atomic r (doDeploy r store artifactId version) := by
  unfold doDeploy downloadMavenArtifact loadAndroidPublisherCredentials
  cases hd : r.download <;> cases hc : r.credentials <;>
    simp only [Option.isNone, Bool.false_eq_true, if_false, if_true] <;>
    first
    | (refine Or.inl ?_; simp [NoCommit, Run.init]; done)
    | skip
  split
  · exact Or.inl (by simp [NoCommit, Run.init])
  split
  · exact Or.inl (by simp [NoCommit, Run.init])
  split
  · exact Or.inl (by simp [NoCommit, Run.init])
  split
  · exact Or.inl (by simp [NoCommit, Run.init])
  rename_i hl
  apply mutate_next r _ _ _ (removeAll_step r _ _)
  · simp [NoCommit, Run.init, selectTrack]
  · exact updatesOk_of_none r _ (by simp [updateCount, Run.init, selectTrack, Call.isUpdate])
  intro hn1 hu1
  apply mutate_next r _ _ _ (add_step r _ _ _ _) hn1 hu1
  intro hn2 hu2
  exact commitEdit_atomic r _ hn2 hu2 (by simpa using hl)

theorem command_atomic (r : Remote) (store : List Track) (c : Command) :
    Atomic r (c.run r store) := by
  cases c with
  | deploy a b => exact doDeploy_atomic r store a b
  | halt a v => exact doHalt_atomic r store a v
  | promote a v t => exact doPromote_atomic r store a v t
  | rollout a v p => exact doRollout_atomic r store a v p

theorem append_commit_inj (pre post s : List Call) (hs : Call.commit ∉ s)
    (h : s ++ [Call.commit] = pre ++ Call.commit :: post) : pre = s ∧ post = [] := by
  induction s generalizing pre with
  | nil =>
    cases pre with
    | nil => simpa using h
    | cons a pre => simp at h
  | cons a s ih =>
    cases pre with
    | nil =>
      simp at h
      exact absurd h.1 (by simpa using fun h => hs (by simp [← h]))
    | cons b pre =>
      simp at h
      obtain ⟨hab, h2⟩ := h
      have := ih pre (fun hm => hs (List.mem_cons_of_mem _ hm)) h2
      simp [hab, this.1, this.2]

/-- C1: whatever the store answers, a deploy, halt, promote or rollout whose track
listing or one of whose track updates fails records no commit call; a run holds at
most one commit call, nothing follows it, and every update recorded before it
succeeded. -/
theorem atomicity_under_failure (r : Remote) (store : List Track) (c : Command) :
    ((r.list = false ∨ ∃ k, k < updateCount (c.run r store).calls ∧ r.update k = false) →
        Call.commit ∉ (c.run r store).calls) ∧
      (c.run r store).calls.count Call.commit ≤ 1 ∧
      (∀ pre post, (c.run r store).calls = pre ++ Call.commit :: post →
        post = [] ∧ ∀ k, k < updateCount pre → r.update k = true) := by
  rcases command_atomic r store c with hn | ⟨s, hs, hns, hl, hu⟩
  · refine ⟨fun _ => hn, ?_, ?_⟩
    · rw [List.count_eq_zero_of_not_mem hn]; exact Nat.zero_le 1
    · intro pre post h
      exact absurd (by rw [h]; simp) hn
  · refine ⟨?_, ?_, ?_⟩
    · rintro (h | ⟨k, hk, hf⟩)
      · rw [hl] at h; exact absurd h (by simp)
      · rw [hs, updateCount_append] at hk
        have : r.update k = true := hu k (by simpa [updateCount, Call.isUpdate] using hk)
        rw [this] at hf; exact absurd hf (by simp)
    · rw [hs, List.count_append, List.count_eq_zero_of_not_mem hns]
      simp
    · intro pre post h
      rw [hs] at h
      obtain ⟨h1, h2⟩ := append_commit_inj pre post s hns h
      exact ⟨h2, fun k hk => hu k (by rw [← h1]; exact hk)⟩


/-! ## Closed forms of the mutators and commands when every call succeeds -/

theorem getD_append_length (pre post : List Track) (t d : Track) :
    (pre ++ t :: post).getD pre.length d = t := by
  induction pre with
  | nil => rfl
  | cons a pre ih => simpa using ih

theorem set_append_length (pre post : List Track) (t c : Track) :
    (pre ++ t :: post).set pre.length c = pre ++ c :: post := by
  induction pre with
  | nil => rfl
  | cons a pre ih => simp [ih]

theorem deref_congr (s s2 : Run) (hl : s2.listed = s.listed) (hf : s2.fresh = s.fresh)
    (ref : Ref) : s2.deref ref = s.deref ref := by
  cases ref <;> simp [Run.deref, hl, hf]

theorem assign_congr (s s2 : Run) (hl : s2.listed = s.listed) (hf : s2.fresh = s.fresh)
    (ref : Ref) (c : Track) :
    (s2.assign ref c).listed = (s.assign ref c).listed ∧
      (s2.assign ref c).fresh = (s.assign ref c).fresh := by
  cases ref <;> simp [Run.assign, hl, hf]

theorem removeAll_fst (r : Remote) (s : Run) (track : Ref) :
    (removeAllVersionCodesFromPlayStoreTrack r s track).1 = r.update (updateCount s.calls) := by
  unfold removeAllVersionCodesFromPlayStoreTrack
  simp only [tracksUpdate_fst, assign_calls, (foldl_post_calls track _ s).1]
  split <;> simp_all

theorem removeAll_snd (r : Remote) (s : Run) (track : Ref) :
    (removeAllVersionCodesFromPlayStoreTrack r s track).2.listed =
        (s.assign track { s.deref track with VersionCodes := [] }).listed ∧
      (removeAllVersionCodesFromPlayStoreTrack r s track).2.fresh =
        (s.assign track { s.deref track with VersionCodes := [] }).fresh ∧
      (removeAllVersionCodesFromPlayStoreTrack r s track).2.calls =
        s.calls ++ [Call.update
          ((s.assign track { s.deref track with VersionCodes := [] }).deref track).Track
          ((s.assign track { s.deref track with VersionCodes := [] }).deref track)] := by
  unfold removeAllVersionCodesFromPlayStoreTrack
  have h := foldl_post_calls track (s.deref track).VersionCodes s
  simp only [] at h
  obtain ⟨h1, h2, h3⟩ := h
  generalize (List.foldl (fun s versionCode =>
      postSlackMessage s (Msg.removingVersionCode versionCode (s.deref track).Track)) s
      (s.deref track).VersionCodes) = s2 at h1 h2 h3
  have hd := deref_congr s s2 h2 h3 track
  have ha := assign_congr s s2 h2 h3 track { s.deref track with VersionCodes := [] }
  have hd2 := deref_congr _ _ ha.1 ha.2 track
  simp only [tracksUpdate_snd, tracksUpdate_fst, hd]
  split <;> simp [ha.1, ha.2, h1, hd2]

theorem add_fst (r : Remote) (s : Run) (track : Ref) (v : Int) (f : ℚ) :
    (addVersionCodeToPlayStoreTrack r s track v f).1 = r.update (updateCount s.calls) := by
  unfold addVersionCodeToPlayStoreTrack
  simp only [tracksUpdate_fst, assign_calls, postSlackMessage_calls]
  split <;> simp_all

theorem add_snd (r : Remote) (s : Run) (track : Ref) (v : Int) (f : ℚ) (hv : s.Valid track) :
    (addVersionCodeToPlayStoreTrack r s track v f).2.listed =
        (s.assign track ⟨(s.deref track).Track, f, (s.deref track).VersionCodes ++ [v]⟩).listed ∧
      (addVersionCodeToPlayStoreTrack r s track v f).2.fresh =
        (s.assign track ⟨(s.deref track).Track, f, (s.deref track).VersionCodes ++ [v]⟩).fresh ∧
      (addVersionCodeToPlayStoreTrack r s track v f).2.calls =
        s.calls ++ [Call.update (s.deref track).Track
          ⟨(s.deref track).Track, f, (s.deref track).VersionCodes ++ [v]⟩] := by
  unfold addVersionCodeToPlayStoreTrack
  have hv2 : (postSlackMessage s (Msg.addingVersionCode v (s.deref track).Track)).Valid track := by
    cases track with
    | listed i => exact hv
    | fresh => trivial
  have hv3 : ((postSlackMessage s (Msg.addingVersionCode v (s.deref track).Track)).assign track
      { s.deref track with UserFraction := f }).Valid track := by
    cases track
    · simpa [Run.Valid] using hv
    · trivial
  simp only [tracksUpdate_snd, tracksUpdate_fst, postSlackMessage_deref, deref_assign _ _ _ hv2,
    deref_assign _ _ _ hv3, assign_assign]
  have ha := assign_congr s (postSlackMessage s (Msg.addingVersionCode v (s.deref track).Track))
    rfl rfl track ⟨(s.deref track).Track, f, (s.deref track).VersionCodes ++ [v]⟩
  split <;> simp [ha.1, ha.2]

theorem change_fst (r : Remote) (s : Run) (track : Ref) (f : ℚ) :
    (changeUserFraction r s track f).1 = r.update (updateCount s.calls) := by
  unfold changeUserFraction
  simp only [tracksUpdate_fst, assign_calls, postSlackMessage_calls]
  split <;> simp_all

theorem change_snd (r : Remote) (s : Run) (track : Ref) (f : ℚ) (hv : s.Valid track) :
    (changeUserFraction r s track f).2.listed =
        (s.assign track { s.deref track with UserFraction := f }).listed ∧
      (changeUserFraction r s track f).2.fresh =
        (s.assign track { s.deref track with UserFraction := f }).fresh ∧
      (changeUserFraction r s track f).2.calls =
        s.calls ++ [Call.update (s.deref track).Track { s.deref track with UserFraction := f }] := by
  unfold changeUserFraction
  have hv2 : (postSlackMessage s (Msg.changingUserFraction (s.deref track).Track)).Valid track := by
    cases track with
    | listed i => exact hv
    | fresh => trivial
  simp only [tracksUpdate_snd, tracksUpdate_fst, postSlackMessage_deref, deref_assign _ _ _ hv2]
  have ha := assign_congr s (postSlackMessage s (Msg.changingUserFraction (s.deref track).Track))
    rfl rfl track { s.deref track with UserFraction := f }
  split <;> simp [ha.1, ha.2]

theorem purge_run (r : Remote) (hr : ∀ k, r.update k = true) (v : Int) :
    ∀ (ts pre : List Track) (s : Run), s.listed = pre ++ ts →
      (removeVersionCodeFromPlayStoreTracks r v
          ((List.range' pre.length ts.length).map Ref.listed) s).1 = true ∧
        (removeVersionCodeFromPlayStoreTracks r v
          ((List.range' pre.length ts.length).map Ref.listed) s).2.calls =
          s.calls ++ ts.map (purgeCall v) ∧
        (removeVersionCodeFromPlayStoreTracks r v
          ((List.range' pre.length ts.length).map Ref.listed) s).2.listed =
          pre ++ ts.map (purgeTrack v) ∧
        (removeVersionCodeFromPlayStoreTracks r v
          ((List.range' pre.length ts.length).map Ref.listed) s).2.fresh = s.fresh := by
  intro ts
  induction ts with
  | nil =>
    intro pre s h
    simp [removeVersionCodeFromPlayStoreTracks, h]
  | cons t ts ih =>
    intro pre s h
    have hd : s.deref (Ref.listed pre.length) = t := by
      simp only [Run.deref, h]; exact getD_append_length pre ts t _
    obtain ⟨h1, h2, h3, h4⟩ := removeScan_spec v t.Track t.VersionCodes s
    simp only [List.length_cons, List.range', List.map_cons]
    rw [removeVersionCodeFromPlayStoreTracks]
    simp only [tracksUpdate_fst, tracksUpdate_snd, hr, if_true, hd]
    generalize hs2 : (removeScan v t.Track t.VersionCodes s) = sc at h1 h2 h3 h4
    have hl : ((sc.1.assign (Ref.listed pre.length)
        { sc.1.deref (Ref.listed pre.length) with VersionCodes := sc.2 }).call
        (Call.update
          ((sc.1.assign (Ref.listed pre.length)
            { sc.1.deref (Ref.listed pre.length) with VersionCodes := sc.2 }).deref
              (Ref.listed pre.length)).Track
          ((sc.1.assign (Ref.listed pre.length)
            { sc.1.deref (Ref.listed pre.length) with VersionCodes := sc.2 }).deref
              (Ref.listed pre.length)))).listed = (pre ++ [purgeTrack v t]) ++ ts := by
      simp only [call_listed, Run.assign, Run.deref, h2, h, getD_append_length, set_append_length,
        h4, purgeTrack]
      simp
    have := ih (pre ++ [purgeTrack v t]) _ hl
    simp only [List.length_append, List.length_singleton] at this
    obtain ⟨i1, i2, i3, i4⟩ := this
    refine ⟨i1, ?_, ?_, ?_⟩
    · rw [i2]
      simp only [call_calls, assign_calls, h1, Run.assign, Run.deref, h2, h, getD_append_length,
        set_append_length, h4, purgeCall, purgeTrack]
      simp
    · rw [i3]; simp
    · rw [i4]; simp [Run.assign, h3]

theorem purge_all (r : Remote) (hr : ∀ k, r.update k = true) (v : Int) (s : Run) (n : Nat)
    (hn : n = s.listed.length) :
    (removeVersionCodeFromPlayStoreTracks r v ((List.range n).map Ref.listed) s).1 = true ∧
      (removeVersionCodeFromPlayStoreTracks r v ((List.range n).map Ref.listed) s).2.calls =
        s.calls ++ s.listed.map (purgeCall v) ∧
      (removeVersionCodeFromPlayStoreTracks r v ((List.range n).map Ref.listed) s).2.listed =
        s.listed.map (purgeTrack v) ∧
      (removeVersionCodeFromPlayStoreTracks r v ((List.range n).map Ref.listed) s).2.fresh =
        s.fresh := by
  have := purge_run r hr v s.listed [] s rfl
  rw [hn, List.range_eq_range']
  simpa using this


theorem select_fold (name : String) (s : Run) :
    ∀ (l rest : List Track), s.listed = l ++ rest →
      (((List.range l.length).map Ref.listed).foldl
          (fun track candidate => if (s.deref candidate).Track = name then candidate else track)
          Ref.fresh = Ref.fresh ∧ ∀ x ∈ l, x.Track ≠ name) ∨
        (∃ pre t post, l = pre ++ t :: post ∧ t.Track = name ∧ (∀ x ∈ post, x.Track ≠ name) ∧
          ((List.range l.length).map Ref.listed).foldl
            (fun track candidate => if (s.deref candidate).Track = name then candidate else track)
            Ref.fresh = Ref.listed pre.length) := by
  intro l
  induction l using List.reverseRecOn with
  | nil => intro rest _; left; simp
  | append_singleton l a ih =>
    intro rest h
    have h2 : s.listed = l ++ (a :: rest) := by simpa using h
    have hd : s.deref (Ref.listed l.length) = a := by
      simp only [Run.deref, h2]; exact getD_append_length l rest a _
    simp only [List.length_append, List.length_singleton, List.range_succ, List.map_append,
      List.map_cons, List.map_nil, List.foldl_append, List.foldl_cons, List.foldl_nil, hd]
    by_cases ha : a.Track = name
    · right
      exact ⟨l, a, [], rfl, ha, by simp, by simp [ha]⟩
    · rcases ih (a :: rest) h2 with ⟨h1, h3⟩ | ⟨pre, t, post, h1, h3, h4, h5⟩
      · left
        refine ⟨by simp [ha, h1], ?_⟩
        intro x hx
        rcases List.mem_append.mp hx with hx | hx
        · exact h3 x hx
        · simp at hx; rw [hx]; exact ha
      · right
        refine ⟨pre, t, post ++ [a], by simp [h1], h3, ?_, by simp [ha, h5]⟩
        intro x hx
        rcases List.mem_append.mp hx with hx | hx
        · exact h4 x hx
        · simp at hx; rw [hx]; exact ha

theorem selectTrack_fst (s : Run) (tracks : List Ref) (name : String) :
    (selectTrack s tracks name).1 = { s with fresh := ⟨name, 0, []⟩ } := rfl

theorem selectTrack_snd (s : Run) (name : String) :
    ((selectTrack s s.tracks name).2 = Ref.fresh ∧ ∀ x ∈ s.listed, x.Track ≠ name) ∨
      (∃ pre t post, s.listed = pre ++ t :: post ∧ t.Track = name ∧
        (∀ x ∈ post, x.Track ≠ name) ∧ (selectTrack s s.tracks name).2 = Ref.listed pre.length) := by
  have := select_fold name { s with fresh := ⟨name, 0, []⟩ } s.listed [] (by simp)
  exact this


theorem purge_fst (r : Remote) (hr : ∀ k, r.update k = true) (v : Int) (refs : List Ref)
    (s : Run) : (removeVersionCodeFromPlayStoreTracks r v refs s).1 = true := by
  induction refs generalizing s with
  | nil => rfl
  | cons track rest ih =>
    rw [removeVersionCodeFromPlayStoreTracks]
    simp only [tracksUpdate_fst, hr, if_true]
    exact ih _

theorem if_ok (res : Bool × Run) (body : Run) (h : res.1 = true) :
    (if (!res.1) = true then res.2 else body) = body := by
  simp [h]

theorem commitEdit_calls (r :
    Remote) (s : Run) : (commitEdit r s).calls = s.calls ++ [Call.commit] :=
  by
  unfold commitEdit
  split <;> simp

theorem commitEdit_msgs (r : Remote) (s : Run) (h : r.commit = true) :
    (commitEdit r s).msgs = s.msgs ++ [Msg.done] := by
  unfold commitEdit
  simp [h]

theorem move_fresh (r : Remote) (hr : ∀ k, r.update k = true) (s : Run) (n : Nat)
    (hn : n = s.listed.length) (v : Int) (f : ℚ) (name : String)
    (hf : s.fresh = ⟨name, 0, []⟩) :
    (addVersionCodeToPlayStoreTrack r
      (removeVersionCodeFromPlayStoreTracks r v ((List.range n).map Ref.listed)
        (removeAllVersionCodesFromPlayStoreTrack r s Ref.fresh).2).2 Ref.fresh v f).2.calls =
      s.calls ++ [Call.update name ⟨name, 0, []⟩] ++ s.listed.map (purgeCall v) ++
        [Call.update name ⟨name, f, [v]⟩] := by
  obtain ⟨a1, a2, a3⟩ := removeAll_snd r s Ref.fresh
  obtain ⟨_, b2, b3, b4⟩ := purge_all r hr v
    (removeAllVersionCodesFromPlayStoreTrack r s Ref.fresh).2 n (by rw [a1, hn]; rfl)
  obtain ⟨_, _, c3⟩ := add_snd r (removeVersionCodeFromPlayStoreTracks r v
    ((List.range n).map Ref.listed) (removeAllVersionCodesFromPlayStoreTrack r s Ref.fresh).2).2
    Ref.fresh v f trivial
  rw [c3, b2, a3]
  simp only [Run.deref, b4, a2, a1, Run.assign, hf]
  simp

theorem move_listed (r : Remote) (hr : ∀ k, r.update k = true) (s : Run) (n : Nat)
    (hn : n = s.listed.length) (v : Int) (f : ℚ) (pre post : List Track) (t : Track)
    (hl : s.listed = pre ++ t :: post) :
    (addVersionCodeToPlayStoreTrack r
      (removeVersionCodeFromPlayStoreTracks r v ((List.range n).map Ref.listed)
        (removeAllVersionCodesFromPlayStoreTrack r s (Ref.listed pre.length)).2).2
          (Ref.listed pre.length) v f).2.calls =
      s.calls ++ [Call.update t.Track { t with VersionCodes := [] }] ++
        (pre ++ { t with VersionCodes := [] } :: post).map (purgeCall v) ++
        [Call.update t.Track ⟨t.Track, f, [v]⟩] := by
  obtain ⟨a1, a2, a3⟩ := removeAll_snd r s (Ref.listed pre.length)
  have hd : s.deref (Ref.listed pre.length) = t := by
    simp only [Run.deref, hl]; exact getD_append_length pre post t _
  rw [hd] at a1 a2 a3
  simp only [Run.assign, Run.deref, hl, set_append_length, getD_append_length] at a1 a2 a3
  obtain ⟨_, b2, b3, b4⟩ := purge_all r hr v
    (removeAllVersionCodesFromPlayStoreTrack r s (Ref.listed pre.length)).2 n
    (by rw [a1, hn, hl]; simp)
  rw [a1] at b2 b3
  have hd2 : (removeVersionCodeFromPlayStoreTracks r v ((List.range n).map Ref.listed)
      (removeAllVersionCodesFromPlayStoreTrack r s (Ref.listed pre.length)).2).2.deref
        (Ref.listed pre.length) = { t with VersionCodes := [] } := by
    simp only [Run.deref, b3, List.map_append, List.map_cons]
    have := getD_append_length (pre.map (purgeTrack v)) (post.map (purgeTrack v))
      (purgeTrack v { t with VersionCodes := [] }) ⟨"", 0, []⟩
    simp only [List.length_map] at this
    rw [this]; simp [purgeTrack]
  obtain ⟨_, _, c3⟩ := add_snd r (removeVersionCodeFromPlayStoreTracks r v
    ((List.range n).map Ref.listed)
    (removeAllVersionCodesFromPlayStoreTrack r s (Ref.listed pre.length)).2).2
    (Ref.listed pre.length) v f (by simp [Run.Valid, b3])
  rw [c3, b2, a3, hd2]
  simp


theorem last_split_unique (name : String) (pre post pre2 post2 : List Track) (t t2 : Track)
    (h : pre ++ t :: post = pre2 ++ t2 :: post2) (ht : t.Track = name) (ht2 : t2.Track = name)
    (hp : ∀ x ∈ post, x.Track ≠ name) (hp2 : ∀ x ∈ post2, x.Track ≠ name) :
    pre2.length = pre.length := by
  rcases List.append_eq_append_iff.mp h with ⟨a, h1, h2⟩ | ⟨a, h1, h2⟩
  · cases a with
    | nil => simp [h1]
    | cons b a =>
      simp at h2
      exact absurd ht2 (hp t2 (by rw [h2.2]; simp))
  · cases a with
    | nil => simp [h1]
    | cons b a =>
      simp at h2
      exact absurd ht (hp2 t (by rw [h2.2]; simp))

theorem selectTrack_absent (s : Run) (name : String) (h : ∀ x ∈ s.listed, x.Track ≠ name) :
    (selectTrack s s.tracks name).2 = Ref.fresh := by
  rcases selectTrack_snd s name with ⟨h1, _⟩ | ⟨pre, t, post, h1, h2, _, _⟩
  · exact h1
  · exact absurd h2 (h t (by rw [h1]; simp))

theorem selectTrack_present (s : Run) (name : String) (pre post : List Track) (t : Track)
    (hl : s.listed = pre ++ t :: post) (ht : t.Track = name) (hp : ∀ x ∈ post, x.Track ≠ name) :
    (selectTrack s s.tracks name).2 = Ref.listed pre.length := by
  rcases selectTrack_snd s name with ⟨_, h1⟩ | ⟨pre2, t2, post2, h1, h2, h3, h4⟩
  · exact absurd ht (h1 t (by rw [hl]; simp))
  · rw [h4, last_split_unique name pre post pre2 post2 t t2 (by rw [← hl, h1]) ht h2 hp h3]

theorem doPromote_absent (r : Remote) (hr : r.AllSucceed) (store : List Track) (appId : String)
    (v : Int) (name : String) (h : ∀ x ∈ store, x.Track ≠ name) :
    (doPromote r store appId v name).calls =
        [Call.insert, Call.list, Call.update name ⟨name, 0, []⟩] ++ store.map (purgeCall v) ++
          [Call.update name ⟨name, 0, [v]⟩, Call.commit] ∧
      (doPromote r store appId v name).msgs.getLast? = some Msg.done := by
  obtain ⟨hc, hp, hi, hl, hu, hcm⟩ := hr
  unfold doPromote loadAndroidPublisherCredentials
  simp only [hc, hp, hi, hl, Option.isNone, Bool.not_true, Bool.false_eq_true, if_false]
  rw [selectTrack_absent _ name h, selectTrack_fst]
  simp only [Run.deref, List.any_nil, Bool.false_eq_true, if_false]
  rw [if_ok _ _ (by rw [removeAll_fst]; exact hu _), if_ok _ _ (purge_fst r hu v _ _),
    if_ok _ _ (by rw [add_fst]; exact hu _)]
  constructor
  · rw [commitEdit_calls]
    have h := move_fresh r hu
      ⟨[Call.insert, Call.list], [Msg.okPromoting appId v name], store, ⟨name, 0, []⟩⟩
      store.length rfl v 0 name rfl
    exact (congrArg (fun l => l ++ [Call.commit]) h).trans (by simp)
  · rw [commitEdit_msgs _ _ hcm]; simp

theorem doPromote_present (r : Remote) (hr : r.AllSucceed) (pre post : List Track) (t : Track)
    (appId : String) (v : Int) (name : String) (ht : t.Track = name)
    (hp : ∀ x ∈ post, x.Track ≠ name) (hv : v ∉ t.VersionCodes) :
    (doPromote r (pre ++ t :: post) appId v name).calls =
        [Call.insert, Call.list, Call.update name { t with VersionCodes := [] }] ++
          (pre ++ { t with VersionCodes := [] } :: post).map (purgeCall v) ++
          [Call.update name ⟨name, 0, [v]⟩, Call.commit] ∧
      (doPromote r (pre ++ t :: post) appId v name).msgs.getLast? = some Msg.done := by
  obtain ⟨hc, hp1, hi, hl, hu, hcm⟩ := hr
  unfold doPromote loadAndroidPublisherCredentials
  simp only [hc, hp1, hi, hl, Option.isNone, Bool.not_true, Bool.false_eq_true, if_false]
  rw [selectTrack_present _ name pre post t rfl ht hp, selectTrack_fst]
  simp only [Run.deref, getD_append_length]
  rw [if_neg (by simpa using hv)]
  rw [if_ok _ _ (by rw [removeAll_fst]; exact hu _), if_ok _ _ (purge_fst r hu v _ _),
    if_ok _ _ (by rw [add_fst]; exact hu _)]
  constructor
  · rw [commitEdit_calls]
    have h := move_listed r hu
      ⟨[Call.insert, Call.list], [Msg.okPromoting appId v name], pre ++ t :: post, ⟨name, 0, []⟩⟩
      (pre ++ t :: post).length rfl v 0 pre post t rfl
    exact (congrArg (fun l => l ++ [Call.commit]) h).trans (by simp [ht])
  · rw [commitEdit_msgs _ _ hcm]; simp

theorem doPromote_exists (r : Remote) (hc : r.credentials = Credentials.ok)
    (hp1 : r.publisher = true) (hi : r.insert = true) (hl : r.list = true)
    (pre post : List Track) (t : Track)
    (appId : String) (v : Int) (name : String) (ht : t.Track = name)
    (hp : ∀ x ∈ post, x.Track ≠ name) (hv : v ∈ t.VersionCodes) :
    (doPromote r (pre ++ t :: post) appId v name).calls = [Call.insert, Call.list] ∧
      (doPromote r (pre ++ t :: post) appId v name).msgs =
        [Msg.okPromoting appId v name, Msg.alreadyExists v name] := by
  unfold doPromote loadAndroidPublisherCredentials
  simp only [hc, hp1, hi, hl, Option.isNone, Bool.not_true, Bool.false_eq_true, if_false]
  rw [selectTrack_present _ name pre post t rfl ht hp, selectTrack_fst]
  simp only [Run.deref, getD_append_length]
  rw [if_pos (by simpa using hv)]
  simp [Run.init]


theorem exists_fold (v : Int) (cs : List Int) (b : Bool) :
    cs.foldl (fun found candidate => if candidate = v then true else found) b =
      (b || decide (v ∈ cs)) := by
  induction cs generalizing b with
  | nil => simp
  | cons c cs ih =>
    rw [List.foldl_cons, ih]
    by_cases h : c = v
    · simp [h]
    · have h2 : ¬ v = c := fun e => h e.symm
      simp [h, h2]

theorem doRollout_absent (r : Remote) (hr : r.AllSucceed) (store : List Track) (appId : String)
    (v : Int) (p : Int) (h : ∀ x ∈ store, x.Track ≠ "rollout") :
    (doRollout r store appId v p).calls =
        [Call.insert, Call.list, Call.update "rollout" ⟨"rollout", 0, []⟩] ++
          store.map (purgeCall v) ++
          [Call.update "rollout" ⟨"rollout", userFractionOf p, [v]⟩, Call.commit] ∧
      (doRollout r store appId v p).msgs.getLast? = some Msg.done := by
  obtain ⟨hc, hp, hi, hl, hu, hcm⟩ := hr
  unfold doRollout loadAndroidPublisherCredentials
  simp only [hc, hp, hi, hl, Option.isNone, Bool.not_true, Bool.false_eq_true, if_false]
  rw [selectTrack_absent _ "rollout" h, selectTrack_fst]
  simp only [Run.deref, List.foldl_nil, Bool.not_false, if_true]
  rw [if_ok _ _ (by rw [removeAll_fst]; exact hu _), if_ok _ _ (purge_fst r hu v _ _),
    if_ok _ _ (by rw [add_fst]; exact hu _)]
  constructor
  · rw [commitEdit_calls]
    have h := move_fresh r hu
      ⟨[Call.insert, Call.list], [Msg.okRollingOut appId v p], store, ⟨"rollout", 0, []⟩⟩
      store.length rfl v (userFractionOf p) "rollout" rfl
    exact (congrArg (fun l => l ++ [Call.commit]) h).trans (by simp)
  · rw [commitEdit_msgs _ _ hcm]; simp

theorem doRollout_present (r : Remote) (hr : r.AllSucceed) (pre post : List Track) (t : Track)
    (appId : String) (v : Int) (p : Int) (ht : t.Track = "rollout")
    (hp : ∀ x ∈ post, x.Track ≠ "rollout") (hv : v ∉ t.VersionCodes) :
    (doRollout r (pre ++ t :: post) appId v p).calls =
        [Call.insert, Call.list, Call.update "rollout" { t with VersionCodes := [] }] ++
          (pre ++ { t with VersionCodes := [] } :: post).map (purgeCall v) ++
          [Call.update "rollout" ⟨"rollout", userFractionOf p, [v]⟩, Call.commit] ∧
      (doRollout r (pre ++ t :: post) appId v p).msgs.getLast? = some Msg.done := by
  obtain ⟨hc, hp1, hi, hl, hu, hcm⟩ := hr
  unfold doRollout loadAndroidPublisherCredentials
  simp only [hc, hp1, hi, hl, Option.isNone, Bool.not_true, Bool.false_eq_true, if_false]
  rw [selectTrack_present _ "rollout" pre post t rfl ht hp, selectTrack_fst]
  simp only [Run.deref, getD_append_length, exists_fold]
  rw [if_pos (by simpa using hv)]
  rw [if_ok _ _ (by rw [removeAll_fst]; exact hu _), if_ok _ _ (purge_fst r hu v _ _),
    if_ok _ _ (by rw [add_fst]; exact hu _)]
  constructor
  · rw [commitEdit_calls]
    have h := move_listed r hu
      ⟨[Call.insert, Call.list], [Msg.okRollingOut appId v p], pre ++ t :: post,
        ⟨"rollout", 0, []⟩⟩
      (pre ++ t :: post).length rfl v (userFractionOf p) pre post t rfl
    exact (congrArg (fun l => l ++ [Call.commit]) h).trans (by simp [ht])
  · rw [commitEdit_msgs _ _ hcm]; simp

theorem doRollout_restage (r : Remote) (hr : r.AllSucceed) (pre post : List Track) (t : Track)
    (appId : String) (v : Int) (p : Int) (ht : t.Track = "rollout")
    (hp : ∀ x ∈ post, x.Track ≠ "rollout") (hv : v ∈ t.VersionCodes) :
    (doRollout r (pre ++ t :: post) appId v p).calls =
        [Call.insert, Call.list,
          Call.update "rollout" { t with UserFraction := userFractionOf p }, Call.commit] ∧
      (doRollout r (pre ++ t :: post) appId v p).msgs.getLast? = some Msg.done := by
  obtain ⟨hc, hp1, hi, hl, hu, hcm⟩ := hr
  unfold doRollout loadAndroidPublisherCredentials
  simp only [hc, hp1, hi, hl, Option.isNone, Bool.not_true, Bool.false_eq_true, if_false]
  rw [selectTrack_present _ "rollout" pre post t rfl ht hp, selectTrack_fst]
  simp only [Run.deref, getD_append_length, exists_fold]
  rw [if_neg (by simpa using hv)]
  rw [if_ok _ _ (by rw [change_fst]; exact hu _)]
  constructor
  · rw [commitEdit_calls]
    have h := (change_snd r
      ⟨[Call.insert, Call.list], [Msg.okRollingOut appId v p], pre ++ t :: post,
        ⟨"rollout", 0, []⟩⟩ (Ref.listed pre.length) (userFractionOf p)
      (by simp [Run.Valid])).2.2
    simp only [Run.deref, getD_append_length] at h
    exact (congrArg (fun l => l ++ [Call.commit]) h).trans (by simp [ht])
  · rw [commitEdit_msgs _ _ hcm]; simp

theorem doHalt_ok (r : Remote) (hr : r.AllSucceed) (store : List Track) (appId : String)
    (v : Int) :
    (doHalt r store appId v).calls =
        [Call.insert, Call.list] ++ store.map (purgeCall v) ++ [Call.commit] ∧
      (doHalt r store appId v).msgs.getLast? = some Msg.done := by
  obtain ⟨hc, hp1, hi, hl, hu, hcm⟩ := hr
  unfold doHalt loadAndroidPublisherCredentials
  simp only [hc, hp1, hi, hl, Option.isNone, Bool.not_true, Bool.false_eq_true, if_false]
  rw [if_ok _ _ (purge_fst r hu v _ _)]
  constructor
  · rw [commitEdit_calls]
    have h := (purge_all r hu v
      ⟨[Call.insert, Call.list], [Msg.okHalting appId v], store, ⟨"", 0, []⟩⟩
      store.length rfl).2.1
    exact (congrArg (fun l => l ++ [Call.commit]) h).trans (by simp)
  · rw [commitEdit_msgs _ _ hcm]; simp

/-! ## Effect of the recorded calls on the store -/

theorem applyUpdate_mid (pre post : List Track) (t b : Track)
    (hpre : ∀ x ∈ pre, x.Track ≠ t.Track) (hpost : ∀ x ∈ post, x.Track ≠ t.Track) :
    applyUpdate (pre ++ t :: post) t.Track b = pre ++ b :: post := by
  unfold applyUpdate
  rw [if_pos (by simp)]
  simp only [List.map_append, List.map_cons, if_true]
  congr 1
  · calc pre.map (fun x => if x.Track = t.Track then b else x) = pre.map id :=
        List.map_congr_left (fun x hx => by simp [hpre x hx])
      _ = pre := List.map_id pre
  · congr 1
    calc post.map (fun x => if x.Track = t.Track then b else x) = post.map id :=
        List.map_congr_left (fun x hx => by simp [hpost x hx])
      _ = post := List.map_id post

theorem applyUpdate_new (store : List Track) (name : String) (b : Track)
    (h : ∀ x ∈ store, x.Track ≠ name) : applyUpdate store name b = store ++ [b] := by
  unfold applyUpdate
  rw [if_neg]
  simpa using h

theorem names_split (pre post : List Track) (t : Track) (h : NamesDistinct (pre ++ t :: post)) :
    (∀ x ∈ pre, x.Track ≠ t.Track) ∧ (∀ x ∈ post, x.Track ≠ t.Track) := by
  unfold NamesDistinct at h
  rw [List.map_append, List.map_cons, List.nodup_append] at h
  obtain ⟨_, h2, h3⟩ := h
  rw [List.nodup_cons] at h2
  constructor
  · intro x hx e
    exact h3 (List.mem_map_of_mem _ hx) (by rw [e]; simp)
  · intro x hx e
    exact h2.1 (by rw [← e]; exact List.mem_map_of_mem _ hx)

/-- Sending every track of the draft once, each under its own name, replaces the
draft by what was sent. -/
theorem foldl_update_all (g : Track → Track) (hg : ∀ x, (g x).Track = x.Track) :
    ∀ (ts pre post : List Track), NamesDistinct (pre ++ ts ++ post) →
      (ts.map (fun x => Call.update x.Track (g x))).foldl applyCall (pre ++ ts ++ post) =
        pre ++ ts.map g ++ post := by
  intro ts
  induction ts with
  | nil => intro pre post _; simp
  | cons t ts ih =>
    intro pre post h
    have h2 : NamesDistinct (pre ++ t :: (ts ++ post)) := by simpa using h
    obtain ⟨h3, h4⟩ := names_split pre (ts ++ post) t h2
    simp only [List.map_cons, List.foldl_cons, applyCall]
    have e : pre ++ t :: ts ++ post = pre ++ t :: (ts ++ post) := by simp
    rw [e, applyUpdate_mid pre (ts ++ post) t (g t) h3 h4]
    have := ih (pre ++ [g t]) post (by
      unfold NamesDistinct at h ⊢
      simpa [hg] using h)
    simpa using this

theorem purgeTrack_name (v : Int) (t : Track) : (purgeTrack v t).Track = t.Track := rfl

theorem move_store_absent (store : List Track) (hd : NamesDistinct store) (name : String)
    (v : Int) (f : ℚ) (h : ∀ x ∈ store, x.Track ≠ name) :
    ([Call.insert, Call.list, Call.update name ⟨name, 0, []⟩] ++ store.map (purgeCall v) ++
        [Call.update name ⟨name, f, [v]⟩, Call.commit]).foldl applyCall store =
      store.map (purgeTrack v) ++ [⟨name, f, [v]⟩] := by
  simp only [List.foldl_append, List.foldl_cons, List.foldl_nil, applyCall]
  rw [applyUpdate_new store name _ h]
  have h1 := foldl_update_all (purgeTrack v) (purgeTrack_name v) store [] [⟨name, 0, []⟩] (by
    unfold NamesDistinct at hd ⊢
    simp only [List.nil_append, List.map_append, List.map_cons, List.map_nil]
    rw [List.nodup_append]
    refine ⟨hd, by simp, ?_⟩
    intro a ha hb
    simp at hb
    obtain ⟨x, hx, rfl⟩ := List.mem_map.mp ha
    exact h x hx hb)
  simp only [List.nil_append] at h1
  unfold purgeCall
  rw [h1]
  have h2 := applyUpdate_mid (store.map (purgeTrack v)) [] ⟨name, 0, []⟩ ⟨name, f, [v]⟩
    (by
      intro x hx
      obtain ⟨y, hy, rfl⟩ := List.mem_map.mp hx
      exact h y hy)
    (by simp)
  exact h2

theorem move_store_present (pre post : List Track) (t : Track)
    (hd : NamesDistinct (pre ++ t :: post)) (v : Int) (f : ℚ) :
    ([Call.insert, Call.list, Call.update t.Track { t with VersionCodes := [] }] ++
        (pre ++ { t with VersionCodes := [] } :: post).map (purgeCall v) ++
        [Call.update t.Track ⟨t.Track, f, [v]⟩, Call.commit]).foldl applyCall (pre ++ t :: post) =
      pre.map (purgeTrack v) ++ ⟨t.Track, f, [v]⟩ :: post.map (purgeTrack v) := by
  obtain ⟨h3, h4⟩ := names_split pre post t hd
  simp only [List.foldl_append, List.foldl_cons, List.foldl_nil, applyCall]
  rw [applyUpdate_mid pre post t _ h3 h4]
  have h1 := foldl_update_all (purgeTrack v) (purgeTrack_name v)
    (pre ++ { t with VersionCodes := [] } :: post) [] [] (by
      unfold NamesDistinct at hd ⊢
      simpa using hd)
  simp only [List.nil_append, List.append_nil] at h1
  unfold purgeCall
  rw [h1]
  have h2 := applyUpdate_mid (pre.map (purgeTrack v)) (post.map (purgeTrack v))
    (purgeTrack v { t with VersionCodes := [] }) ⟨t.Track, f, [v]⟩
    (by
      intro x hx
      obtain ⟨y, hy, rfl⟩ := List.mem_map.mp hx
      exact h3 y hy)
    (by
      intro x hx
      obtain ⟨y, hy, rfl⟩ := List.mem_map.mp hx
      exact h4 y hy)
  simpa using h2

theorem storeAfter_of_noCommit (r : Remote) (store : List Track) (run : Run)
    (h : Call.commit ∉ run.calls) : storeAfter r store run = store := by
  unfold storeAfter committed
  simp [h]

/-! ## Final track state of promote and rollout, and exclusivity -/

theorem storeAfter_committed (r : Remote) (hc : r.commit = true) (store : List Track)
    (run : Run) (h : Call.commit ∈ run.calls) :
    storeAfter r store run = run.calls.foldl applyCall store := by
  unfold storeAfter committed
  simp [hc, h]

theorem getLast_commit (l : List Call) (a : Call) :
    (l ++ [a, Call.commit]).getLast? = some Call.commit := by
  have : l ++ [a, Call.commit] = (l ++ [a]) ++ [Call.commit] := by simp
  rw [this, List.getLast?_concat]

theorem last_split (name : String) (l : List Track) (h : ∃ x ∈ l, x.Track = name) :
    ∃ pre t post, l = pre ++ t :: post ∧ t.Track = name ∧ ∀ x ∈ post, x.Track ≠ name := by
  rcases selectTrack_snd ⟨[], [], l, ⟨"", 0, []⟩⟩ name with ⟨_, h1⟩ | ⟨pre, t, post, h1, h2, h3, _⟩
  · obtain ⟨x, hx, hn⟩ := h
    exact absurd hn (h1 x hx)
  · exact ⟨pre, t, post, h1, h2, h3⟩

theorem moved_absent (store : List Track) (name : String) (v : Int) (f : ℚ)
    (h : ∀ x ∈ store, x.Track ≠ name) :
    moved store name v f = store.map (purgeTrack v) ++ [⟨name, f, [v]⟩] := by
  unfold moved
  rw [if_neg (by simpa using h)]
  congr 1
  exact List.map_congr_left (fun x hx => by simp [h x hx])

theorem moved_present (pre post : List Track) (t : Track) (v : Int) (f : ℚ)
    (hd : NamesDistinct (pre ++ t :: post)) :
    moved (pre ++ t :: post) t.Track v f =
      pre.map (purgeTrack v) ++ ⟨t.Track, f, [v]⟩ :: post.map (purgeTrack v) := by
  obtain ⟨h3, h4⟩ := names_split pre post t hd
  unfold moved
  rw [if_pos (by simp)]
  simp only [List.map_append, List.map_cons, if_true, List.append_nil]
  congr 1
  · exact List.map_congr_left (fun x hx => by simp [h3 x hx])
  · congr 1
    exact List.map_congr_left (fun x hx => by simp [h4 x hx])

theorem promote_store (r : Remote) (hr : r.AllSucceed) (store : List Track)
    (hd : NamesDistinct store) (appId : String) (v : Int) (name : String)
    (hv : ∀ t ∈ store, t.Track = name → v ∉ t.VersionCodes) :
    (doPromote r store appId v name).calls.getLast? = some Call.commit ∧
      (doPromote r store appId v name).msgs.getLast? = some Msg.done ∧
      storeAfter r store (doPromote r store appId v name) = moved store name v 0 := by
  by_cases h : ∃ x ∈ store, x.Track = name
  · obtain ⟨pre, t, post, rfl, ht, hp⟩ := last_split name store h
    obtain ⟨h1, h2⟩ := doPromote_present r hr pre post t appId v name ht hp
      (hv t (by simp) ht)
    refine ⟨by rw [h1]; exact getLast_commit _ _, h2, ?_⟩
    rw [storeAfter_committed r hr.2.2.2.2.2 _ _ (by rw [h1]; simp), h1, ← ht,
      move_store_present pre post t hd v 0, moved_present pre post t v 0 hd]
  · have h0 : ∀ x ∈ store, x.Track ≠ name := fun x hx e => h ⟨x, hx, e⟩
    obtain ⟨h1, h2⟩ := doPromote_absent r hr store appId v name h0
    refine ⟨by rw [h1]; exact getLast_commit _ _, h2, ?_⟩
    rw [storeAfter_committed r hr.2.2.2.2.2 _ _ (by rw [h1]; simp), h1,
      move_store_absent store hd name v 0 h0, moved_absent store name v 0 h0]

theorem rollout_store_new (r : Remote) (hr : r.AllSucceed) (store : List Track)
    (hd : NamesDistinct store) (appId : String) (v : Int) (p : Int)
    (hv : ∀ t ∈ store, t.Track = "rollout" → v ∉ t.VersionCodes) :
    (doRollout r store appId v p).calls.getLast? = some Call.commit ∧
      (doRollout r store appId v p).msgs.getLast? = some Msg.done ∧
      storeAfter r store (doRollout r store appId v p) =
        moved store "rollout" v (userFractionOf p) := by
  by_cases h : ∃ x ∈ store, x.Track = "rollout"
  · obtain ⟨pre, t, post, rfl, ht, hp⟩ := last_split "rollout" store h
    obtain ⟨h1, h2⟩ := doRollout_present r hr pre post t appId v p ht hp
      (hv t (by simp) ht)
    refine ⟨by rw [h1]; exact getLast_commit _ _, h2, ?_⟩
    rw [storeAfter_committed r hr.2.2.2.2.2 _ _ (by rw [h1]; simp), h1, ← ht,
      move_store_present pre post t hd v _, moved_present pre post t v _ hd]
  · have h0 : ∀ x ∈ store, x.Track ≠ "rollout" := fun x hx e => h ⟨x, hx, e⟩
    obtain ⟨h1, h2⟩ := doRollout_absent r hr store appId v p h0
    refine ⟨by rw [h1]; exact getLast_commit _ _, h2, ?_⟩
    rw [storeAfter_committed r hr.2.2.2.2.2 _ _ (by rw [h1]; simp), h1,
      move_store_absent store hd "rollout" v _ h0, moved_absent store "rollout" v _ h0]

theorem apart_iff (store : List Track) :
    store.Pairwise Apart ↔ NamesDistinct store ∧ Exclusive store := by
  unfold NamesDistinct Exclusive Apart List.Nodup
  rw [List.pairwise_and_iff, List.pairwise_map]

theorem moved_apart (store : List Track) (name : String) (v : Int) (f : ℚ)
    (h : store.Pairwise Apart) : (moved store name v f).Pairwise Apart := by
  unfold moved
  rw [List.pairwise_append]
  refine ⟨?_, ?_, ?_⟩
  · refine List.Pairwise.map _ ?_ h
    intro a b hab
    obtain ⟨hn, hc⟩ := hab
    by_cases ha : a.Track = name <;> by_cases hb : b.Track = name
    · exact absurd (ha.trans hb.symm) hn
    · simp only [ha, hb, if_true, if_false]
      refine ⟨fun e => hb (by rw [purgeTrack_name] at e; exact e.symm), ?_⟩
      intro c hc1 hc2
      simp at hc1
      simp [purgeTrack, hc1] at hc2
    · simp only [ha, hb, if_true, if_false]
      refine ⟨fun e => ha (by rw [purgeTrack_name] at e; exact e), ?_⟩
      intro c hc1 hc2
      simp at hc2
      simp [purgeTrack, hc2] at hc1
    · simp only [ha, hb, if_false]
      refine ⟨hn, ?_⟩
      intro c hc1 hc2
      simp [purgeTrack] at hc1 hc2
      exact hc c hc1.1 hc2.1
  · split <;> simp
  · intro a ha b hb
    split at hb
    · simp at hb
    · rename_i hany
      simp at hb
      subst hb
      obtain ⟨x, hx, rfl⟩ := List.mem_map.mp ha
      have hxn : x.Track ≠ name := by
        intro e
        exact hany (by simp; exact ⟨x, hx, e⟩)
      simp only [hxn, if_false]
      refine ⟨hxn, ?_⟩
      intro c hc1 hc2
      simp at hc2
      simp [purgeTrack, hc2] at hc1


theorem same_of_distinct (pre post : List Track) (t x : Track)
    (hd : NamesDistinct (pre ++ t :: post)) (hx : x ∈ pre ++ t :: post)
    (hn : x.Track = t.Track) : x = t := by
  obtain ⟨h3, h4⟩ := names_split pre post t hd
  rcases List.mem_append.mp hx with h | h
  · exact absurd hn (h3 x h)
  · rcases List.mem_cons.mp h with h | h
    · exact h
    · exact absurd hn (h4 x h)

theorem promote_store_exists (r : Remote) (hr : r.AllSucceed) (store : List Track)
    (appId : String) (v : Int) (name : String) (hT : ∃ t ∈ store, t.Track = name)
    (hv : ∀ t ∈ store, t.Track = name → v ∈ t.VersionCodes) :
    (doPromote r store appId v name).calls = [Call.insert, Call.list] ∧
      (doPromote r store appId v name).msgs =
        [Msg.okPromoting appId v name, Msg.alreadyExists v name] ∧
      storeAfter r store (doPromote r store appId v name) = store := by
  obtain ⟨pre, t, post, rfl, ht, hp⟩ := last_split name store hT
  obtain ⟨h1, h2⟩ := doPromote_exists r hr.1 hr.2.1 hr.2.2.1 hr.2.2.2.1 pre post t appId v name
    ht hp (hv t (by simp) ht)
  exact ⟨h1, h2, storeAfter_of_noCommit r _ _ (by rw [h1]; simp)⟩

theorem rollout_store_restage (r : Remote) (hr : r.AllSucceed) (store : List Track)
    (appId : String) (v : Int) (p : Int) (t : Track) (ht : t ∈ store)
    (hn : t.Track = "rollout") (hu : ∀ u ∈ store, u.Track = "rollout" → u = t)
    (hv : v ∈ t.VersionCodes) :
    (doRollout r store appId v p).calls =
        [Call.insert, Call.list,
          Call.update "rollout" { t with UserFraction := userFractionOf p }, Call.commit] ∧
      (doRollout r store appId v p).msgs.getLast? = some Msg.done ∧
      storeAfter r store (doRollout r store appId v p) =
        store.map (fun x =>
          if x.Track = "rollout" then { x with UserFraction := userFractionOf p } else x) := by
  obtain ⟨pre, t2, post, rfl, ht2, hp⟩ := last_split "rollout" store ⟨t, ht, hn⟩
  have e : t2 = t := hu t2 (by simp) ht2
  subst e
  obtain ⟨h1, h2⟩ := doRollout_restage r hr pre post t2 appId v p ht2 hp hv
  refine ⟨h1, h2, ?_⟩
  rw [storeAfter_committed r hr.2.2.2.2.2 _ _ (by rw [h1]; simp), h1]
  simp only [List.foldl_cons, List.foldl_nil, applyCall]
  unfold applyUpdate
  rw [if_pos (by simp [ht2])]
  refine List.map_congr_left ?_
  intro x hx
  by_cases hx2 : x.Track = "rollout"
  · rw [if_pos hx2, if_pos hx2, hu x hx hx2]
  · rw [if_neg hx2, if_neg hx2]

theorem command_apart (r : Remote) (hr : r.AllSucceed) (store : List Track)
    (h : store.Pairwise Apart) (c : Command) (hc : c.isPromoteOrRollout = true) :
    (storeAfter r store (c.run r store)).Pairwise Apart := by
  have hd : NamesDistinct store := ((apart_iff store).mp h).1
  cases c with
  | deploy a b => simp [Command.isPromoteOrRollout] at hc
  | halt a v => simp [Command.isPromoteOrRollout] at hc
  | promote a v name =>
    simp only [Command.run]
    by_cases hv : ∀ t ∈ store, t.Track = name → v ∉ t.VersionCodes
    · rw [(promote_store r hr store hd a v name hv).2.2]
      exact moved_apart store name v 0 h
    · have hv2 : ∃ t ∈ store, t.Track = name ∧ v ∈ t.VersionCodes := by
        by_contra hne
        exact hv (fun t ht hn hm => hne ⟨t, ht, hn, hm⟩)
      obtain ⟨t, ht, hn, hm⟩ := hv2
      obtain ⟨pre, post, rfl⟩ := List.append_of_mem ht
      rw [(promote_store_exists r hr _ a v name ⟨t, ht, hn⟩ (by
        intro u hu hun
        rw [same_of_distinct pre post t u hd hu (hun.trans hn.symm)]
        exact hm)).2.2]
      exact h
  | rollout a v p =>
    simp only [Command.run]
    by_cases hv : ∀ t ∈ store, t.Track = "rollout" → v ∉ t.VersionCodes
    · rw [(rollout_store_new r hr store hd a v p hv).2.2]
      exact moved_apart store "rollout" v _ h
    · have hv2 : ∃ t ∈ store, t.Track = "rollout" ∧ v ∈ t.VersionCodes := by
        by_contra hne
        exact hv (fun t ht hn hm => hne ⟨t, ht, hn, hm⟩)
      obtain ⟨t, ht, hn, hm⟩ := hv2
      obtain ⟨pre, post, rfl⟩ := List.append_of_mem ht
      rw [(rollout_store_restage r hr _ a v p t ht hn (by
        intro u hu hun
        exact same_of_distinct pre post t u hd hu (hun.trans hn.symm)) hm).2.2]
      refine List.Pairwise.map _ ?_ h
      intro x y hxy
      unfold Apart at hxy ⊢
      by_cases hx : x.Track = "rollout" <;> by_cases hy : y.Track = "rollout"
      · rw [if_pos hx, if_pos hy]; exact hxy
      · rw [if_pos hx, if_neg hy]; exact hxy
      · rw [if_neg hx, if_pos hy]; exact hxy
      · rw [if_neg hx, if_neg hy]; exact hxy

theorem runAll_apart (steps : List (Remote × Command)) :
    ∀ store : List Track, store.Pairwise Apart →
      (∀ step ∈ steps, step.1.AllSucceed ∧ step.2.isPromoteOrRollout = true) →
      (runAll steps store).Pairwise Apart := by
  induction steps with
  | nil => intro store h _; exact h
  | cons step steps ih =>
    intro store h hs
    have h1 := hs step (by simp)
    have := ih (storeAfter step.1 store (step.2.run step.1 store))
      (command_apart step.1 h1.1 store h step.2 h1.2)
      (fun s hs2 => hs s (List.mem_cons_of_mem _ hs2))
    simpa [runAll] using this

/-- C2: from distinct track names and version codes that each live on at most one
track, after every number of promote and rollout commands whose remote calls all
succeed each version code is still a member of at most one track (and the names are
still distinct). -/
theorem exclusivity (steps : List (Remote × Command)) (store : List Track)
    (hd : NamesDistinct store) (he : Exclusive store)
    (hs : ∀ step ∈ steps, step.1.AllSucceed ∧ step.2.isPromoteOrRollout = true) (k : Nat) :
    Exclusive (runAll (steps.take k) store) ∧ NamesDistinct (runAll (steps.take k) store) := by
  have := runAll_apart (steps.take k) store ((apart_iff store).mpr ⟨hd, he⟩)
    (fun s hs2 => hs s (List.mem_of_mem_take hs2))
  exact ⟨((apart_iff _).mp this).2, ((apart_iff _).mp this).1⟩

/-! ## Idempotence of the halt updates -/

/-- The value the store holds for a track called `name` after the updates
`purgeCall v t` for `t` in `ts` were applied to a draft where it held `acc`. -/
theorem foldl_purge_map (v : Int) :
    ∀ (ts store : List Track), (∀ t ∈ ts, ∃ x ∈ store, x.Track = t.Track) →
      (ts.map (purgeCall v)).foldl applyCall store =
        store.map (fun x =>
          ts.foldl (fun acc t => if t.Track = x.Track then purgeTrack v t else acc) x) := by
  intro ts
  induction ts with
  | nil => intro store _; simp
  | cons t ts ih =>
    intro store h
    simp only [List.map_cons, List.foldl_cons, applyCall, purgeCall]
    have hany : (store.any fun x => decide (x.Track = t.Track)) = true := by
      obtain ⟨x, hx, hn⟩ := h t (by simp)
      simp only [List.any_eq_true, decide_eq_true_eq]
      exact ⟨x, hx, hn⟩
    unfold applyUpdate
    rw [if_pos hany]
    have h2 : ∀ u ∈ ts, ∃ x ∈ store.map
        (fun x => if x.Track = t.Track then purgeTrack v t else x), x.Track = u.Track := by
      intro u hu
      obtain ⟨x, hx, hn⟩ := h u (List.mem_cons_of_mem _ hu)
      refine ⟨_, List.mem_map_of_mem _ hx, ?_⟩
      by_cases hxt : x.Track = t.Track
      · rw [if_pos hxt, purgeTrack_name, ← hxt, hn]
      · rw [if_neg hxt, hn]
    rw [ih _ h2, List.map_map]
    refine List.map_congr_left ?_
    intro x _
    simp only [Function.comp]
    by_cases hxt : x.Track = t.Track
    · simp only [hxt, purgeTrack_name, if_true]
    · have e : ¬ t.Track = x.Track := fun e => hxt e.symm
      simp only [if_neg hxt, if_neg e]


theorem choose_none (v : Int) (name : String) (ts : List Track) (acc : Track)
    (h : ∀ t ∈ ts, t.Track ≠ name) :
    ts.foldl (fun acc t => if t.Track = name then purgeTrack v t else acc) acc = acc := by
  induction ts generalizing acc with
  | nil => rfl
  | cons t ts ih =>
    rw [List.foldl_cons, if_neg (h t (by simp))]
    exact ih acc (fun u hu => h u (List.mem_cons_of_mem _ hu))

theorem choose_some (v : Int) (name : String) (ts : List Track)
    (h : ∃ t ∈ ts, t.Track = name) :
    ∃ t ∈ ts, t.Track = name ∧ ∀ acc,
      ts.foldl (fun acc t => if t.Track = name then purgeTrack v t else acc) acc =
        purgeTrack v t := by
  induction ts with
  | nil => simp at h
  | cons t ts ih =>
    by_cases h2 : ∃ u ∈ ts, u.Track = name
    · obtain ⟨u, hu, hn, hacc⟩ := ih h2
      exact ⟨u, List.mem_cons_of_mem _ hu, hn, fun acc => by rw [List.foldl_cons, hacc]⟩
    · have h3 : ∀ u ∈ ts, u.Track ≠ name := fun u hu e => h2 ⟨u, hu, e⟩
      have ht : t.Track = name := by
        obtain ⟨u, hu, hn⟩ := h
        rcases List.mem_cons.mp hu with e | e
        · rw [← e]; exact hn
        · exact absurd hn (h3 u e)
      exact ⟨t, by simp, ht, fun acc => by
        rw [List.foldl_cons, if_pos ht, choose_none v name ts _ h3]⟩

theorem purgeTrack_idem (v : Int) (t : Track) : purgeTrack v (purgeTrack v t) = purgeTrack v t := by
  simp [purgeTrack]

/-- The tracks left by the updates of a halt. -/
theorem halt_store (v : Int) (store : List Track) :
    (store.map (purgeCall v)).foldl applyCall store =
      store.map (fun x =>
        store.foldl (fun acc t => if t.Track = x.Track then purgeTrack v t else acc) x) :=
  foldl_purge_map v store store (fun t ht => ⟨t, ht, rfl⟩)

theorem halt_store_fixed (v : Int) (store : List Track) :
    (((store.map (purgeCall v)).foldl applyCall store).map (purgeCall v)).foldl applyCall
        ((store.map (purgeCall v)).foldl applyCall store) =
      (store.map (purgeCall v)).foldl applyCall store := by
  rw [halt_store v ((store.map (purgeCall v)).foldl applyCall store)]
  conv_rhs => rw [← List.map_id ((store.map (purgeCall v)).foldl applyCall store)]
  refine List.map_congr_left ?_
  intro y hy
  rw [halt_store v store] at hy ⊢
  obtain ⟨x, hx, rfl⟩ := List.mem_map.mp hy
  obtain ⟨t, ht, hn, hacc⟩ := choose_some v x.Track store ⟨x, hx, rfl⟩
  have hy1 : store.foldl (fun acc t => if t.Track = x.Track then purgeTrack v t else acc) x =
      purgeTrack v t := hacc x
  rw [hy1, purgeTrack_name, hn]
  simp only [id]
  have hex : ∃ u ∈ store.map (fun x =>
      store.foldl (fun acc t => if t.Track = x.Track then purgeTrack v t else acc) x),
      u.Track = x.Track := ⟨_, List.mem_map_of_mem _ hx, by rw [hy1, purgeTrack_name, hn]⟩
  obtain ⟨u, hu, hun, hacc2⟩ := choose_some v x.Track _ hex
  rw [hacc2]
  obtain ⟨z, hz, rfl⟩ := List.mem_map.mp hu
  obtain ⟨t2, ht2, hn2, hacc3⟩ := choose_some v z.Track store ⟨z, hz, rfl⟩
  rw [hacc3 z] at hun ⊢
  rw [purgeTrack_name, hn2] at hun
  rw [hun] at hacc3
  have := (hacc3 x).symm.trans (hacc x)
  rw [this, purgeTrack_idem]

/-! ## The claims about promote, halt and the add mutator -/

theorem allOk_succeeds : Remote.allOk.AllSucceed :=
  ⟨rfl, rfl, rfl, rfl, fun _ => rfl, rfl⟩

theorem committed_of_last (r : Remote) (hc : r.commit = true) (run : Run)
    (h : run.calls.getLast? = some Call.commit) : committed r run = true := by
  unfold committed
  have : Call.commit ∈ run.calls := List.mem_of_getLast?_eq_some h
  simp [hc, this]

/-- C3: with distinct track names and `v` not yet on the target track, a promote whose
remote calls all succeed commits, reports "Done.", and leaves the target track with
exactly `[v]` at fraction 0 and every other track as it was with `v` taken out. -/
theorem promote_postcondition (r : Remote) (hr : r.AllSucceed) (store : List Track)
    (hd : NamesDistinct store) (appId : String) (v : Int) (name : String)
    (hv : ∀ t ∈ store, t.Track = name → v ∉ t.VersionCodes) :
    (doPromote r store appId v name).calls.getLast? = some Call.commit ∧
      committed r (doPromote r store appId v name) = true ∧
      (doPromote r store appId v name).msgs.getLast? = some Msg.done ∧
      storeAfter r store (doPromote r store appId v name) =
        store.map (fun t => if t.Track = name then ⟨name, 0, [v]⟩ else purgeTrack v t) ++
          (if store.any (fun t => t.Track = name) then [] else [⟨name, 0, [v]⟩]) := by
  obtain ⟨h1, h2, h3⟩ := promote_store r hr store hd appId v name hv
  exact ⟨h1, committed_of_last r hr.2.2.2.2.2 _ h1, h2, h3⟩

/-- C3 at the scenario of the specification: from internal `[5]`, production `[]`,
promoting 5 to production ends in internal `[]`, production `[5]`. -/
theorem promote_postcondition_witness :
    storeAfter Remote.allOk [⟨"internal", 0, [5]⟩, ⟨"production", 0, []⟩]
        (doPromote Remote.allOk [⟨"internal", 0, [5]⟩, ⟨"production", 0, []⟩] "app" 5
          "production") =
      [⟨"internal", 0, []⟩, ⟨"production", 0, [5]⟩] := by
  rw [(promote_postcondition Remote.allOk allOk_succeeds
    [⟨"internal", 0, [5]⟩, ⟨"production", 0, []⟩] (by unfold NamesDistinct; decide) "app" 5
    "production" (by decide)).2.2.2]
  decide


theorem halt_store_eq (r : Remote) (hr : r.AllSucceed) (store : List Track) (appId : String)
    (v : Int) :
    storeAfter r store (doHalt r store appId v) =
      (store.map (purgeCall v)).foldl applyCall store := by
  obtain ⟨h1, _⟩ := doHalt_ok r hr store appId v
  rw [storeAfter_committed r hr.2.2.2.2.2 _ _ (by rw [h1]; simp), h1]
  simp [applyCall]

theorem halt_last (r : Remote) (hr : r.AllSucceed) (store : List Track) (appId : String)
    (v : Int) :
    (doHalt r store appId v).calls.getLast? = some Call.commit := by
  rw [(doHalt_ok r hr store appId v).1, List.getLast?_concat]

/-- C4: when all remote calls succeed, a second halt of the same version code leaves
the tracks of the store as the first halt left them, and both runs end with the
commit call, committed, and the report "Done.". -/
theorem halt_idempotent (r1 r2 : Remote) (h1 : r1.AllSucceed) (h2 : r2.AllSucceed)
    (store : List Track) (appId : String) (v : Int) :
    storeAfter r2 (storeAfter r1 store (doHalt r1 store appId v))
        (doHalt r2 (storeAfter r1 store (doHalt r1 store appId v)) appId v) =
        storeAfter r1 store (doHalt r1 store appId v) ∧
      ((doHalt r1 store appId v).calls.getLast? = some Call.commit ∧
        committed r1 (doHalt r1 store appId v) = true ∧
        (doHalt r1 store appId v).msgs.getLast? = some Msg.done) ∧
      ((doHalt r2 (storeAfter r1 store (doHalt r1 store appId v)) appId v).calls.getLast? =
          some Call.commit ∧
        committed r2 (doHalt r2 (storeAfter r1 store (doHalt r1 store appId v)) appId v) = true ∧
        (doHalt r2 (storeAfter r1 store (doHalt r1 store appId v)) appId v).msgs.getLast? =
          some Msg.done) := by
  refine ⟨?_, ⟨halt_last r1 h1 _ _ _, committed_of_last r1 h1.2.2.2.2.2 _ (halt_last r1 h1 _ _ _),
    (doHalt_ok r1 h1 _ _ _).2⟩,
    ⟨halt_last r2 h2 _ _ _, committed_of_last r2 h2.2.2.2.2.2 _ (halt_last r2 h2 _ _ _),
    (doHalt_ok r2 h2 _ _ _).2⟩⟩
  rw [halt_store_eq r2 h2, halt_store_eq r1 h1]
  exact halt_store_fixed v store

/-- C4 at a concrete snapshot: halting 4 twice from internal `[3, 4]`, alpha `[4]`. -/
theorem halt_idempotent_witness :
    storeAfter Remote.allOk
        (storeAfter Remote.allOk [⟨"internal", 0, [3, 4]⟩, ⟨"alpha", 0, [4]⟩]
          (doHalt Remote.allOk [⟨"internal", 0, [3, 4]⟩, ⟨"alpha", 0, [4]⟩] "app" 4))
        (doHalt Remote.allOk
          (storeAfter Remote.allOk [⟨"internal", 0, [3, 4]⟩, ⟨"alpha", 0, [4]⟩]
            (doHalt Remote.allOk [⟨"internal", 0, [3, 4]⟩, ⟨"alpha", 0, [4]⟩] "app" 4))
          "app" 4) =
      storeAfter Remote.allOk [⟨"internal", 0, [3, 4]⟩, ⟨"alpha", 0, [4]⟩]
        (doHalt Remote.allOk [⟨"internal", 0, [3, 4]⟩, ⟨"alpha", 0, [4]⟩] "app" 4) :=
  (halt_idempotent Remote.allOk Remote.allOk allOk_succeeds allOk_succeeds
    [⟨"internal", 0, [3, 4]⟩, ⟨"alpha", 0, [4]⟩] "app" 4).1

/-- C5: when all updates succeed, `removeVersionCodeFromPlayStoreTracks` over
`tracks.Tracks` reports success and issues exactly one update per listed track, in
order, each sending the track under its own name with its fraction unchanged and its
version codes filtered of `v` (order kept); a track without `v` is sent unchanged; and
a halt whose remote calls all succeed makes these updates between listing and commit
and reports "Done.". -/
theorem purge_everywhere (r : Remote) (hu : ∀ k, r.update k = true) (v : Int) (s : Run) :
    (removeVersionCodeFromPlayStoreTracks r v s.tracks s).1 = true ∧
      (removeVersionCodeFromPlayStoreTracks r v s.tracks s).2.calls =
        s.calls ++ s.listed.map (fun t => Call.update t.Track
          ⟨t.Track, t.UserFraction, t.VersionCodes.filter (fun c => decide (c ≠ v))⟩) ∧
      (∀ t ∈ s.listed, v ∉ t.VersionCodes →
        Call.update t.Track t ∈ (removeVersionCodeFromPlayStoreTracks r v s.tracks s).2.calls) ∧
      (r.AllSucceed → ∀ (store : List Track) (appId : String),
        (doHalt r store appId v).calls =
            [Call.insert, Call.list] ++ store.map (fun t => Call.update t.Track
              ⟨t.Track, t.UserFraction, t.VersionCodes.filter (fun c => decide (c ≠ v))⟩) ++
              [Call.commit] ∧
          (doHalt r store appId v).msgs.getLast? = some Msg.done) := by
  obtain ⟨h1, h2, _, _⟩ := purge_all r hu v s s.listed.length rfl
  refine ⟨h1, h2, ?_, fun hr store appId => doHalt_ok r hr store appId v⟩
  intro t ht hv
  have h3 : (removeVersionCodeFromPlayStoreTracks r v s.tracks s).2.calls =
      s.calls ++ s.listed.map (purgeCall v) := h2
  rw [h3]
  refine List.mem_append_right _ (List.mem_map.mpr ⟨t, ht, ?_⟩)
  have : t.VersionCodes.filter (fun c => decide (c ≠ v)) = t.VersionCodes := by
    rw [List.filter_eq_self]
    intro c hc
    simp only [decide_eq_true_eq]
    intro e
    exact hv (e ▸ hc)
  unfold purgeCall purgeTrack
  rw [this]

/-- C5 at the scenario of the specification: with internal `[3]`, halting 99 sends
internal unchanged, commits and reports "Done.". -/
theorem purge_everywhere_witness :
    (doHalt Remote.allOk [⟨"internal", 0, [3]⟩] "app" 99).calls =
        [Call.insert, Call.list, Call.update "internal" ⟨"internal", 0, [3]⟩, Call.commit] ∧
      (doHalt Remote.allOk [⟨"internal", 0, [3]⟩] "app" 99).msgs.getLast? = some Msg.done := by
  have h := (purge_everywhere Remote.allOk (fun _ => rfl) 99 Run.init).2.2.2 allOk_succeeds
    [⟨"internal", 0, [3]⟩] "app"
  refine ⟨?_, h.2⟩
  rw [h.1]
  decide


theorem doPromote_exists_any (r : Remote) (pre post : List Track) (t : Track)
    (appId : String) (v : Int) (name : String) (ht : t.Track = name)
    (hp : ∀ x ∈ post, x.Track ≠ name) (hv : v ∈ t.VersionCodes) :
    ∀ c ∈ (doPromote r (pre ++ t :: post) appId v name).calls,
      c = Call.insert ∨ c = Call.list := by
  unfold doPromote loadAndroidPublisherCredentials
  cases hc : r.credentials <;> simp only [Option.isNone, Bool.false_eq_true, if_false, if_true]
  · split
    · simp [Run.init]
    split
    · simp [Run.init]
    split
    · simp [Run.init]
    rw [selectTrack_present _ name pre post t rfl ht hp, selectTrack_fst]
    simp only [Run.deref, getD_append_length]
    rw [if_pos (by simpa using hv)]
    simp [Run.init]
  · simp [Run.init]
  · simp [Run.init]

/-- C6: when the snapshot holds a track called `name` and `v` is a member of it, a
promote of `v` to `name` makes no store call other than opening the session and
listing the tracks (no update, no commit) whatever the store answers, leaves the
store as it was, and, when the session opens and the listing succeeds, makes exactly
these two calls and ends by reporting that the version code already exists. -/
theorem promote_noop (r : Remote) (store : List Track) (appId : String) (v : Int)
    (name : String) (hT : ∃ t ∈ store, t.Track = name)
    (hv : ∀ t ∈ store, t.Track = name → v ∈ t.VersionCodes) :
    (∀ c ∈ (doPromote r store appId v name).calls, c = Call.insert ∨ c = Call.list) ∧
      updateCount (doPromote r store appId v name).calls = 0 ∧
      Call.commit ∉ (doPromote r store appId v name).calls ∧
      storeAfter r store (doPromote r store appId v name) = store ∧
      (r.credentials = Credentials.ok → r.publisher = true → r.insert = true → r.list = true →
        (doPromote r store appId v name).calls = [Call.insert, Call.list] ∧
        (doPromote r store appId v name).msgs =
          [Msg.okPromoting appId v name, Msg.alreadyExists v name]) := by
  obtain ⟨pre, t, post, rfl, ht, hp⟩ := last_split name store hT
  have hm : v ∈ t.VersionCodes := hv t (by simp) ht
  have h1 := doPromote_exists_any r pre post t appId v name ht hp hm
  have h2 : Call.commit ∉ (doPromote r (pre ++ t :: post) appId v name).calls := by
    intro hc
    rcases h1 _ hc with e | e <;> cases e
  refine ⟨h1, ?_, h2, storeAfter_of_noCommit r _ _ h2, ?_⟩
  · unfold updateCount
    rw [List.length_eq_zero, List.filter_eq_nil_iff]
    intro c hc
    rcases h1 c hc with e | e <;> rw [e] <;> simp [Call.isUpdate]
  · intro hc hp1 hi hl
    exact doPromote_exists r hc hp1 hi hl pre post t appId v name ht hp hm

/-- C6 at a concrete snapshot: promoting 5 to internal, which already holds 5. -/
theorem promote_noop_witness :
    (doPromote Remote.allOk [⟨"internal", 0, [5]⟩, ⟨"production", 0, [4]⟩] "app" 5
        "internal").calls = [Call.insert, Call.list] ∧
      (doPromote Remote.allOk [⟨"internal", 0, [5]⟩, ⟨"production", 0, [4]⟩] "app" 5
        "internal").msgs = [Msg.okPromoting "app" 5 "internal", Msg.alreadyExists 5 "internal"] :=
  (promote_noop Remote.allOk [⟨"internal", 0, [5]⟩, ⟨"production", 0, [4]⟩] "app" 5 "internal"
    ⟨⟨"internal", 0, [5]⟩, by simp, rfl⟩ (by decide)).2.2.2.2 rfl rfl rfl rfl

theorem userFractionOf_50 : userFractionOf 50 = 1 / 2 := by
  have h : (float64OfInt 50).div ⟨100, 0⟩ = ⟨4503599627370496, -53⟩ := by decide
  rw [userFractionOf, h, Binary64.toRat]
  norm_num

/-- C8 (as the code behaves): for a pointer to an existing track object,
`addVersionCodeToPlayStoreTrack` makes one update that sends the track under its name
with fraction `f` and with `v` appended to the version codes the track held; what is
sent is exactly `[v]` if and only if the track held no version code. -/
theorem add_appends (r : Remote) (s : Run) (track : Ref) (v : Int) (f : ℚ)
    (hv : s.Valid track) :
    (addVersionCodeToPlayStoreTrack r s track v f).2.calls =
        s.calls ++ [Call.update (s.deref track).Track
          ⟨(s.deref track).Track, f, (s.deref track).VersionCodes ++ [v]⟩] ∧
      ((s.deref track).VersionCodes ++ [v] = [v] ↔ (s.deref track).VersionCodes = []) := by
  refine ⟨(add_snd r s track v f hv).2.2, ?_⟩
  constructor
  · intro h
    have := congrArg List.length h
    simp at this
    exact this
  · intro h; rw [h]; rfl

/-- C8 (as the code behaves) at a concrete heap: adding 2 to the empty track alpha. -/
theorem add_appends_witness :
    (addVersionCodeToPlayStoreTrack Remote.allOk
        ⟨[], [], [⟨"alpha", 0, []⟩], ⟨"", 0, []⟩⟩ (Ref.listed 0) 2 (1 / 2)).2.calls =
      [Call.update "alpha" ⟨"alpha", 1 / 2, [2]⟩] :=
  (add_appends Remote.allOk ⟨[], [], [⟨"alpha", 0, []⟩], ⟨"", 0, []⟩⟩ (Ref.listed 0) 2 (1 / 2)
    (by simp [Run.Valid])).1

/-- C8 counterexample: on a track holding `[1]`, adding 2 sends `[1, 2]`, not `[2]`. -/
theorem add_not_exclusive :
    (addVersionCodeToPlayStoreTrack Remote.allOk
        ⟨[], [], [⟨"alpha", 0, [1]⟩], ⟨"", 0, []⟩⟩ (Ref.listed 0) 2 0).2.calls =
        [Call.update "alpha" ⟨"alpha", 0, [1, 2]⟩] ∧
      (addVersionCodeToPlayStoreTrack Remote.allOk
        ⟨[], [], [⟨"alpha", 0, [1]⟩], ⟨"", 0, []⟩⟩ (Ref.listed 0) 2 0).2.calls ≠
        [Call.update "alpha" ⟨"alpha", 0, [2]⟩] := by
  decide

/-! ## Accuracy of the binary64 rounding -/

theorem roundHalfEven_near (a b : Nat) (hb : 0 < b) :
    |((roundHalfEven a b : ℕ) : ℚ) - (a : ℚ) / b| ≤ 1 / 2 := by
  have hb2 : (0 : ℚ) < b := by exact_mod_cast hb
  have hdm : (a : ℚ) = (b : ℚ) * ((a / b : ℕ) : ℚ) + ((a % b : ℕ) : ℚ) := by
    exact_mod_cast (Nat.div_add_mod a b).symm
  have hr : ((a % b : ℕ) : ℚ) < b := by exact_mod_cast Nat.mod_lt a hb
  have hr0 : (0 : ℚ) ≤ ((a % b : ℕ) : ℚ) := by positivity
  have hq : (a : ℚ) / b = ((a / b : ℕ) : ℚ) + ((a % b : ℕ) : ℚ) / b := by
    rw [hdm]; field_simp; ring
  unfold roundHalfEven
  simp only []
  rw [abs_le]
  split
  · rename_i h
    have h2 : (2 : ℚ) * ((a % b : ℕ) : ℚ) < b := by exact_mod_cast h
    have h3 : ((a % b : ℕ) : ℚ) / b < 1 / 2 := by
      rw [div_lt_iff₀ hb2]; linarith
    have h4 : (0 : ℚ) ≤ ((a % b : ℕ) : ℚ) / b := div_nonneg hr0 hb2.le
    rw [hq]
    constructor <;> linarith
  · split
    · rename_i h
      have h2 : (b : ℚ) < 2 * ((a % b : ℕ) : ℚ) := by exact_mod_cast h
      have h3 : 1 / 2 < ((a % b : ℕ) : ℚ) / b := by
        rw [lt_div_iff₀ hb2]; linarith
      have h4 : ((a % b : ℕ) : ℚ) / b < 1 := by
        rw [div_lt_iff₀ hb2]; linarith
      rw [hq]
      push_cast
      constructor <;> linarith
    · rename_i h1 h2
      have h3 : 2 * (a % b) = b := by omega
      have h4 : (2 : ℚ) * ((a % b : ℕ) : ℚ) = b := by exact_mod_cast h3
      have h5 : ((a % b : ℕ) : ℚ) / b = 1 / 2 := by
        rw [div_eq_iff hb2.ne']; linarith
      rw [hq, h5]
      split
      · constructor <;> linarith
      · push_cast
        constructor <;> linarith

theorem bitLength_spec : ∀ (fuel n : Nat), n < 2 ^ fuel → 0 < n →
    2 ^ (bitLength fuel n - 1) ≤ n ∧ n < 2 ^ bitLength fuel n ∧ 0 < bitLength fuel n := by
  intro fuel
  induction fuel with
  | zero => intro n h h0; simp at h; omega
  | succ fuel ih =>
    intro n h h0
    rw [bitLength, if_neg (by omega)]
    by_cases h1 : n / 2 = 0
    · have hn : n = 1 := by omega
      subst hn
      have : bitLength fuel (1 / 2) = 0 := by
        cases fuel <;> simp [bitLength]
      rw [this]
      simp
    · have h2 : n / 2 < 2 ^ fuel := by
        rw [pow_succ] at h; omega
      obtain ⟨i1, i2, i3⟩ := ih (n / 2) h2 (by omega)
      refine ⟨?_, ?_, by omega⟩
      · have : bitLength fuel (n / 2) + 1 - 1 = (bitLength fuel (n / 2) - 1) + 1 := by omega
        rw [this, pow_succ]
        omega
      · rw [pow_succ]; omega

theorem bitLength_self (n : Nat) (h0 : 0 < n) :
    2 ^ (bitLength n n - 1) ≤ n ∧ n < 2 ^ bitLength n n ∧ 0 < bitLength n n :=
  bitLength_spec n n (Nat.lt_two_pow n) h0


theorem two_zpow_nonneg (k : ℤ) (h : 0 ≤ k) : (2 : ℚ) ^ k = ((2 ^ k.toNat : ℕ) : ℚ) := by
  obtain ⟨m, rfl⟩ := Int.eq_ofNat_of_zero_le h
  simp

theorem two_zpow_neg (k : ℤ) (h : k ≤ 0) :
    (2 : ℚ) ^ k = 1 / ((2 ^ (-k).toNat : ℕ) : ℚ) := by
  have : k = -((-k).toNat : ℤ) := by
    rw [Int.toNat_of_nonneg (by omega)]; ring
  conv_lhs => rw [this]
  rw [zpow_neg, zpow_natCast]
  simp

theorem floorLog2_spec (n d : Nat) (hn : 0 < n) (hd : 0 < d) :
    (2 : ℚ) ^ floorLog2 n d ≤ (n : ℚ) / d ∧ (n : ℚ) / d < (2 : ℚ) ^ (floorLog2 n d + 1) := by
  obtain ⟨n1, n2, n3⟩ := bitLength_self n hn
  obtain ⟨d1, d2, d3⟩ := bitLength_self d hd
  have hd0 : (0 : ℚ) < d := by exact_mod_cast hd
  have hn0 : (0 : ℚ) < n := by exact_mod_cast hn
  -- the bounds in ℚ
  have qn1 : (2 : ℚ) ^ ((bitLength n n : ℤ) - 1) ≤ n := by
    have : ((bitLength n n : ℤ) - 1) = ((bitLength n n - 1 : ℕ) : ℤ) := by omega
    rw [this, zpow_natCast]
    exact_mod_cast n1
  have qn2 : (n : ℚ) < (2 : ℚ) ^ (bitLength n n : ℤ) := by
    rw [zpow_natCast]; exact_mod_cast n2
  have qd1 : (2 : ℚ) ^ ((bitLength d d : ℤ) - 1) ≤ d := by
    have : ((bitLength d d : ℤ) - 1) = ((bitLength d d - 1 : ℕ) : ℤ) := by omega
    rw [this, zpow_natCast]
    exact_mod_cast d1
  have qd2 : (d : ℚ) < (2 : ℚ) ^ (bitLength d d : ℤ) := by
    rw [zpow_natCast]; exact_mod_cast d2
  have two : (0 : ℚ) < 2 := by norm_num
  have two0 : (2 : ℚ) ≠ 0 := by norm_num
  -- 2^(k-1) < n/d < 2^(k+1)
  have lo : (2 : ℚ) ^ ((bitLength n n : ℤ) - (bitLength d d : ℤ) - 1) < (n : ℚ) / d := by
    rw [lt_div_iff₀ hd0]
    calc (2 : ℚ) ^ ((bitLength n n : ℤ) - (bitLength d d : ℤ) - 1) * d
        < (2 : ℚ) ^ ((bitLength n n : ℤ) - (bitLength d d : ℤ) - 1) * 2 ^ (bitLength d d : ℤ) :=
          mul_lt_mul_of_pos_left qd2 (zpow_pos two _)
      _ = (2 : ℚ) ^ ((bitLength n n : ℤ) - 1) := by
          rw [← zpow_add₀ two0]; congr 1; ring
      _ ≤ n := qn1
  have hi : (n : ℚ) / d < (2 : ℚ) ^ ((bitLength n n : ℤ) - (bitLength d d : ℤ) + 1) := by
    rw [div_lt_iff₀ hd0]
    calc (n : ℚ) < (2 : ℚ) ^ (bitLength n n : ℤ) := qn2
      _ = (2 : ℚ) ^ ((bitLength n n : ℤ) - (bitLength d d : ℤ) + 1) *
            2 ^ ((bitLength d d : ℤ) - 1) := by
          rw [← zpow_add₀ two0]; congr 1; ring
      _ ≤ (2 : ℚ) ^ ((bitLength n n : ℤ) - (bitLength d d : ℤ) + 1) * d :=
          mul_le_mul_of_nonneg_left qd1 (zpow_pos two _).le
  unfold floorLog2
  simp only []
  generalize ((bitLength n n : ℤ) - (bitLength d d : ℤ)) = k at lo hi ⊢
  have test : ((0 ≤ k ∧ d * 2 ^ k.toNat ≤ n) ∨ (k < 0 ∧ d ≤ n * 2 ^ (-k).toNat)) ↔
      (2 : ℚ) ^ k ≤ (n : ℚ) / d := by
    rw [le_div_iff₀ hd0]
    by_cases hk : 0 ≤ k
    · rw [two_zpow_nonneg k hk]
      constructor
      · rintro (⟨_, h⟩ | ⟨h, _⟩)
        · rw [mul_comm]; exact_mod_cast h
        · omega
      · intro h
        left
        refine ⟨hk, ?_⟩
        rw [mul_comm] at h
        exact_mod_cast h
    · rw [two_zpow_neg k (by omega)]
      have hp : (0 : ℚ) < ((2 ^ (-k).toNat : ℕ) : ℚ) := by positivity
      rw [one_div, inv_mul_le_iff₀ hp]
      constructor
      · rintro (⟨h, _⟩ | ⟨_, h⟩)
        · omega
        · rw [mul_comm]; exact_mod_cast h
      · intro h
        right
        refine ⟨by omega, ?_⟩
        rw [mul_comm] at h
        exact_mod_cast h
  have km : (2 : ℚ) ^ (k - 1 + 1) = (2 : ℚ) ^ k := by congr 1; ring
  by_cases hk : 0 ≤ k
  · rw [if_pos hk]
    by_cases ht : d * 2 ^ k.toNat ≤ n
    · rw [if_pos ht]
      exact ⟨test.mp (Or.inl ⟨hk, ht⟩), hi⟩
    · rw [if_neg ht]
      refine ⟨lo.le, ?_⟩
      rw [km]
      by_contra hc
      rcases test.mpr (not_lt.mp hc) with ⟨_, h⟩ | ⟨h, _⟩
      · exact ht h
      · omega
  · rw [if_neg hk]
    by_cases ht : d ≤ n * 2 ^ (-k).toNat
    · rw [if_pos ht]
      exact ⟨test.mp (Or.inr ⟨by omega, ht⟩), hi⟩
    · rw [if_neg ht]
      refine ⟨lo.le, ?_⟩
      rw [km]
      by_contra hc
      rcases test.mpr (not_lt.mp hc) with ⟨h, _⟩ | ⟨_, h⟩
      · exact hk h
      · exact ht h


theorem scaled_near (n den : Nat) (hd : 0 < den) (e : ℤ) :
    |(((if 0 ≤ e then roundHalfEven n (den * 2 ^ e.toNat)
        else roundHalfEven (n * 2 ^ (-e).toNat) den : ℕ) : ℚ)) * (2 : ℚ) ^ e - (n : ℚ) / den| ≤
      (2 : ℚ) ^ e / 2 := by
  have hd0 : (0 : ℚ) < den := by exact_mod_cast hd
  have hp : (0 : ℚ) < (2 : ℚ) ^ e := zpow_pos (by norm_num) _
  have key : ∀ m : ℕ, |(m : ℚ) - (n : ℚ) / den / (2 : ℚ) ^ e| ≤ 1 / 2 →
      |(m : ℚ) * (2 : ℚ) ^ e - (n : ℚ) / den| ≤ (2 : ℚ) ^ e / 2 := by
    intro m hm
    have : (m : ℚ) * (2 : ℚ) ^ e - (n : ℚ) / den =
        ((m : ℚ) - (n : ℚ) / den / (2 : ℚ) ^ e) * (2 : ℚ) ^ e := by
      field_simp
      ring
    rw [this, abs_mul, abs_of_pos hp]
    calc |(m : ℚ) - (n : ℚ) / den / (2 : ℚ) ^ e| * (2 : ℚ) ^ e ≤ 1 / 2 * (2 : ℚ) ^ e :=
          mul_le_mul_of_nonneg_right hm hp.le
      _ = (2 : ℚ) ^ e / 2 := by ring
  by_cases he : 0 ≤ e
  · rw [if_pos he]
    apply key
    have h1 := roundHalfEven_near n (den * 2 ^ e.toNat) (by positivity)
    have h2 : (n : ℚ) / den / (2 : ℚ) ^ e = (n : ℚ) / ((den * 2 ^ e.toNat : ℕ) : ℚ) := by
      rw [two_zpow_nonneg e he]; push_cast; rw [div_div]
    rw [h2]; exact h1
  · rw [if_neg he]
    apply key
    have h1 := roundHalfEven_near (n * 2 ^ (-e).toNat) den hd
    have h2 : (n : ℚ) / den / (2 : ℚ) ^ e = ((n * 2 ^ (-e).toNat : ℕ) : ℚ) / den := by
      rw [two_zpow_neg e (by omega)]; push_cast; field_simp
    rw [h2]; exact h1

theorem roundBinary64_near (num : Int) (den : Nat) (hn : num ≠ 0) (hd : 0 < den)
    (hl : -1022 ≤ floorLog2 num.natAbs den) :
    |(roundBinary64 num den).toRat - (num : ℚ) / den| ≤ |(num : ℚ) / den| / 2 ^ 53 := by
  have hn0 : 0 < num.natAbs := Int.natAbs_pos.mpr hn
  obtain ⟨l1, _⟩ := floorLog2_spec num.natAbs den hn0 hd
  have hd0 : (0 : ℚ) < den := by exact_mod_cast hd
  have habs : |(num : ℚ) / den| = (num.natAbs : ℚ) / den := by
    rw [abs_div, abs_of_pos hd0, Nat.cast_natAbs, Int.cast_abs]
  have hs := scaled_near num.natAbs den hd (floorLog2 num.natAbs den - 52)
  have hb : (2 : ℚ) ^ (floorLog2 num.natAbs den - 52) / 2 ≤
      (num.natAbs : ℚ) / den / 2 ^ 53 := by
    have h : (2 : ℚ) ^ (floorLog2 num.natAbs den - 52) =
        (2 : ℚ) ^ floorLog2 num.natAbs den / 2 ^ 52 := by
      rw [zpow_sub₀ (by norm_num : (2 : ℚ) ≠ 0)]
      norm_cast
    calc (2 : ℚ) ^ (floorLog2 num.natAbs den - 52) / 2
        = (2 : ℚ) ^ floorLog2 num.natAbs den / 2 ^ 53 := by rw [h]; ring
      _ ≤ (num.natAbs : ℚ) / den / 2 ^ 53 :=
        (div_le_div_iff_of_pos_right (by positivity)).mpr l1
  have he : ¬ (floorLog2 num.natAbs den - 52 < -1074) := by omega
  have e2 : ∀ a b c : ℚ, -a * b - -c = -(a * b - c) := by intros; ring
  unfold roundBinary64 Binary64.toRat
  rw [if_neg hn, habs]
  simp only [if_neg he]
  push_cast at hs
  by_cases hneg : num < 0
  · rw [if_pos hneg]
    have e1 : (num : ℚ) / den = - ((num.natAbs : ℚ) / den) := by
      rw [Nat.cast_natAbs, Int.cast_abs, abs_of_neg (by exact_mod_cast hneg)]; ring
    rw [e1]
    push_cast
    rw [e2, abs_neg]
    exact hs.trans hb
  · rw [if_neg hneg]
    have e1 : (num : ℚ) / den = (num.natAbs : ℚ) / den := by
      rw [Nat.cast_natAbs, Int.cast_abs, abs_of_nonneg (by exact_mod_cast (not_lt.mp hneg))]
    rw [e1]
    push_cast
    exact hs.trans hb


theorem roundHalfEven_one (a : Nat) : roundHalfEven a 1 = a := by
  unfold roundHalfEven
  simp [Nat.mod_one]

theorem roundBinary64_zero (den : Nat) : roundBinary64 0 den = ⟨0, 0⟩ := by
  unfold roundBinary64
  simp

theorem floorLog2_ge (n d : Nat) (hn : 0 < n) (hd : 0 < d) (k : ℤ)
    (h : (2 : ℚ) ^ k ≤ (n : ℚ) / d) : k ≤ floorLog2 n d := by
  obtain ⟨_, h2⟩ := floorLog2_spec n d hn hd
  by_contra hc
  have h3 : floorLog2 n d + 1 ≤ k := by omega
  have := zpow_le_zpow_right₀ (by norm_num : (1 : ℚ) ≤ 2) h3
  linarith

theorem floorLog2_le (n d : Nat) (hn : 0 < n) (hd : 0 < d) (k : ℤ)
    (h : (n : ℚ) / d < (2 : ℚ) ^ (k + 1)) : floorLog2 n d ≤ k := by
  obtain ⟨h2, _⟩ := floorLog2_spec n d hn hd
  by_contra hc
  have h3 : k + 1 ≤ floorLog2 n d := by omega
  have := zpow_le_zpow_right₀ (by norm_num : (1 : ℚ) ≤ 2) h3
  linarith

/-- Converting an integer of magnitude below 2 ^ 53 to binary64 is exact. -/
theorem float64OfInt_exact (p : Int) (hp : |p| < 2 ^ 53) : (float64OfInt p).toRat = p := by
  unfold float64OfInt
  by_cases h0 : p = 0
  · rw [h0, roundBinary64_zero]; simp [Binary64.toRat]
  have hn0 : 0 < p.natAbs := Int.natAbs_pos.mpr h0
  have hq : ((p.natAbs : ℕ) : ℚ) / ((1 : ℕ) : ℚ) = (p.natAbs : ℚ) := by simp
  have hlo : 0 ≤ floorLog2 p.natAbs 1 := by
    apply floorLog2_ge _ _ hn0 Nat.one_pos
    rw [hq]
    simp only [zpow_zero]
    exact_mod_cast hn0
  have hhi : floorLog2 p.natAbs 1 ≤ 52 := by
    apply floorLog2_le _ _ hn0 Nat.one_pos
    rw [hq]
    have : (p.natAbs : ℤ) < 2 ^ 53 := by rw [Int.natCast_natAbs]; exact hp
    have h2 : (p.natAbs : ℚ) < 2 ^ 53 := by exact_mod_cast this
    calc (p.natAbs : ℚ) < 2 ^ 53 := h2
      _ = (2 : ℚ) ^ ((52 : ℤ) + 1) := by norm_num
  have he : ¬ (floorLog2 p.natAbs 1 - 52 < -1074) := by omega
  have hm : ((if 0 ≤ floorLog2 p.natAbs 1 - 52 then
        roundHalfEven p.natAbs (1 * 2 ^ (floorLog2 p.natAbs 1 - 52).toNat)
      else roundHalfEven (p.natAbs * 2 ^ (-(floorLog2 p.natAbs 1 - 52)).toNat) 1 : ℕ) : ℚ) *
      (2 : ℚ) ^ (floorLog2 p.natAbs 1 - 52) = (p.natAbs : ℚ) := by
    by_cases h52 : 0 ≤ floorLog2 p.natAbs 1 - 52
    · have e : floorLog2 p.natAbs 1 - 52 = 0 := by omega
      rw [if_pos h52, e]
      simp [roundHalfEven_one]
    · rw [if_neg h52, roundHalfEven_one, two_zpow_neg _ (by omega)]
      push_cast
      field_simp
  have habs : ((p.natAbs : ℕ) : ℚ) = |(p : ℚ)| := by
    rw [Nat.cast_natAbs, Int.cast_abs]
  unfold roundBinary64 Binary64.toRat
  rw [if_neg h0]
  simp only [if_neg he]
  push_cast at hm
  by_cases hneg : p < 0
  · rw [if_pos hneg]
    push_cast
    rw [neg_mul, hm, habs, abs_of_neg (by exact_mod_cast hneg)]
    ring
  · rw [if_neg hneg]
    push_cast
    rw [hm, habs, abs_of_nonneg (by exact_mod_cast (not_lt.mp hneg))]

/-- Dividing a binary64 number by 100 rounds the exact quotient. -/
theorem div_hundred (x : Binary64) :
    ∃ (num : Int) (den : Nat), 0 < den ∧ 100 ≤ den ∧ x.div ⟨100, 0⟩ = roundBinary64 num den ∧
      (num : ℚ) / den = x.toRat / 100 ∧ (num = 0 ↔ x.mantissa = 0) := by
  unfold Binary64.div Binary64.toRat
  by_cases h : (0 : ℤ) ≤ x.exponent
  · refine ⟨x.mantissa * 2 ^ (x.exponent - 0).toNat, 100, by norm_num, le_refl _, ?_, ?_, ?_⟩
    · rw [if_pos h]; rfl
    · rw [two_zpow_nonneg _ h]; push_cast; simp
    · simp
  · refine ⟨x.mantissa, 100 * 2 ^ (0 - x.exponent).toNat, by positivity, ?_, ?_, ?_, Iff.rfl⟩
    · exact Nat.le_mul_of_pos_right _ (by positivity)
    · rw [if_neg h]; rfl
    · rw [two_zpow_neg _ (by omega)]
      have : (0 - x.exponent).toNat = (-x.exponent).toNat := by simp
      rw [this]
      push_cast
      field_simp
      left
      ring


/-- For a percentage of magnitude below 2 ^ 53 the fraction `float64(p) / 100` differs
from the rational `p / 100` by at most the relative rounding error 2 ^ (-53). -/
theorem userFractionOf_near (p : Int) (hp : |p| < 2 ^ 53) :
    |userFractionOf p - (p : ℚ) / 100| ≤ |(p : ℚ) / 100| / 2 ^ 53 := by
  obtain ⟨num, den, hd, _, hdiv, hval, _⟩ := div_hundred (float64OfInt p)
  rw [float64OfInt_exact p hp] at hval
  have hd0 : (0 : ℚ) < den := by exact_mod_cast hd
  rw [userFractionOf, hdiv]
  by_cases h0 : p = 0
  · have hnum : num = 0 := by
      rw [h0] at hval
      simp only [Int.cast_zero, zero_div] at hval
      rcases div_eq_zero_iff.mp hval with h | h
      · exact_mod_cast h
      · exact absurd h hd0.ne'
    rw [hnum, roundBinary64_zero, h0]
    simp [Binary64.toRat]
  · have hnum : num ≠ 0 := by
      intro e
      rw [e] at hval
      simp only [Int.cast_zero, zero_div] at hval
      have : (p : ℚ) = 0 := by linarith
      exact h0 (by exact_mod_cast this)
    have hn0 : 0 < num.natAbs := Int.natAbs_pos.mpr hnum
    have habs : (num.natAbs : ℚ) / den = |(p : ℚ)| / 100 := by
      have : (num.natAbs : ℚ) / den = |(num : ℚ) / den| := by
        rw [abs_div, abs_of_pos hd0, Nat.cast_natAbs, Int.cast_abs]
      rw [this, hval, abs_div]
      norm_num
    have hp1 : (1 : ℚ) ≤ |(p : ℚ)| := by
      have : (1 : ℤ) ≤ |p| := Int.one_le_abs h0
      exact_mod_cast this
    have hl : -1022 ≤ floorLog2 num.natAbs den := by
      apply floorLog2_ge _ _ hn0 hd
      rw [habs]
      have h1 : (2 : ℚ) ^ (-1022 : ℤ) ≤ (2 : ℚ) ^ (-7 : ℤ) :=
        zpow_le_zpow_right₀ (by norm_num) (by norm_num)
      have h2 : (2 : ℚ) ^ (-7 : ℤ) = 1 / 128 := by norm_num [zpow_neg]
      have h3 : (1 : ℚ) / 100 ≤ |(p : ℚ)| / 100 := by gcongr
      rw [h2] at h1
      have h4 : (1 : ℚ) / 128 ≤ 1 / 100 := by norm_num
      linarith
    have := roundBinary64_near num den hnum hd hl
    rw [hval] at this
    exact this

/-! ## Binary64 fractions: range and exactness -/

theorem inUnit_sound (x : Binary64) (h : x.inUnit = true) : 0 ≤ x.toRat ∧ x.toRat ≤ 1 := by
  unfold Binary64.inUnit at h
  simp only [Bool.and_eq_true, decide_eq_true_eq] at h
  obtain ⟨⟨h1, h2⟩, h3⟩ := h
  unfold Binary64.toRat
  have hm : (0 : ℚ) ≤ (x.mantissa : ℚ) := by exact_mod_cast h1
  have hp : (0 : ℚ) < (2 : ℚ) ^ x.exponent := by positivity
  refine ⟨mul_nonneg hm hp.le, ?_⟩
  have h4 : (x.mantissa : ℚ) ≤ (2 : ℚ) ^ (-x.exponent) := by
    have e : (-x.exponent) = (((-x.exponent).toNat : ℕ) : ℤ) := by
      rw [Int.toNat_of_nonneg]; omega
    rw [e, zpow_natCast]
    exact_mod_cast h3
  calc (x.mantissa : ℚ) * 2 ^ x.exponent ≤ (2 : ℚ) ^ (-x.exponent) * 2 ^ x.exponent :=
        mul_le_mul_of_nonneg_right h4 hp.le
    _ = 1 := by rw [← zpow_add₀ (by norm_num : (2 : ℚ) ≠ 0)]; simp

set_option maxRecDepth 100000 in
theorem percent_inUnit : ∀ n : Nat, n < 101 →
    ((float64OfInt (n : Int)).div ⟨100, 0⟩).inUnit = true := by
  decide

theorem userFractionOf_unit (p : Int) (h0 : 0 ≤ p) (h1 : p ≤ 100) :
    0 ≤ userFractionOf p ∧ userFractionOf p ≤ 1 := by
  obtain ⟨n, rfl⟩ := Int.eq_ofNat_of_zero_le h0
  exact inUnit_sound _ (percent_inUnit n (by omega))


theorem default_unit : FractionInUnit ⟨"", 0, []⟩ := by
  unfold FractionInUnit; norm_num

theorem deref_unit (s : Run) (h : FractionsOk s) (ref : Ref) : FractionInUnit (s.deref ref) := by
  cases ref with
  | listed i =>
    show FractionInUnit (s.listed.getD i ⟨"", 0, []⟩)
    by_cases hi : i < s.listed.length
    · have : s.listed.getD i ⟨"", 0, []⟩ = s.listed[i] := by simp [List.getD, hi]
      rw [this]
      exact h.1 _ (List.getElem_mem hi)
    · have : s.listed.getD i ⟨"", 0, []⟩ = ⟨"", 0, []⟩ := by
        simp [List.getD, List.getElem?_eq_none (Nat.le_of_not_lt hi)]
      rw [this]
      exact default_unit
  | fresh => exact h.2.1

theorem assign_unit (s : Run) (h : FractionsOk s) (ref : Ref) (c : Track)
    (hc : FractionInUnit c) : FractionsOk (s.assign ref c) := by
  cases ref with
  | listed i =>
    refine ⟨?_, h.2.1, h.2.2⟩
    intro t ht
    rcases List.mem_or_eq_of_mem_set ht with h1 | h1
    · exact h.1 t h1
    · rw [h1]; exact hc
  | fresh => exact ⟨h.1, hc, h.2.2⟩

theorem post_unit (s : Run) (h : FractionsOk s) (m : Msg) : FractionsOk (postSlackMessage s m) :=
  h

theorem call_unit (s : Run) (h : FractionsOk s) (c : Call)
    (hc : ∀ name body, c = Call.update name body → FractionInUnit body) :
    FractionsOk (s.call c) := by
  refine ⟨h.1, h.2.1, ?_⟩
  intro name body hm
  simp only [call_calls, List.mem_append, List.mem_singleton] at hm
  rcases hm with hm | hm
  · exact h.2.2 name body hm
  · exact hc name body hm.symm

theorem update_unit (r : Remote) (s : Run) (h : FractionsOk s) (track : Ref) :
    FractionsOk (if (tracksUpdate r s track).1 then (true, (tracksUpdate r s track).2)
      else (false, postSlackMessage (tracksUpdate r s track).2 Msg.cannotUpdateTrack)).2 := by
  have h1 : FractionsOk (tracksUpdate r s track).2 := by
    rw [tracksUpdate_snd]
    refine call_unit s h _ ?_
    intro name body e
    cases e
    exact deref_unit s h track
  split
  · exact h1
  · exact post_unit _ h1 _

theorem congr_unit (s s2 : Run) (h : FractionsOk s) (hc : s2.calls = s.calls)
    (hl : s2.listed = s.listed) (hf : s2.fresh = s.fresh) : FractionsOk s2 := by
  unfold FractionsOk
  rw [hc, hl, hf]
  exact h

theorem removeAll_unit (r : Remote) (s : Run) (h : FractionsOk s) (track : Ref) :
    FractionsOk (removeAllVersionCodesFromPlayStoreTrack r s track).2 := by
  unfold removeAllVersionCodesFromPlayStoreTrack
  obtain ⟨h1, h2, h3⟩ := foldl_post_calls track (s.deref track).VersionCodes s
  have h4 := congr_unit s _ h h1 h2 h3
  refine update_unit r _ (assign_unit _ h4 track _ ?_) track
  exact deref_unit _ h4 track

theorem add_unit (r : Remote) (s : Run) (h : FractionsOk s) (track : Ref) (v : Int) (f : ℚ)
    (hf : 0 ≤ f ∧ f ≤ 1) : FractionsOk (addVersionCodeToPlayStoreTrack r s track v f).2 := by
  unfold addVersionCodeToPlayStoreTrack
  have h1 : FractionsOk ((postSlackMessage s
      (Msg.addingVersionCode v (s.deref track).Track)).assign track
      { (postSlackMessage s (Msg.addingVersionCode v (s.deref track).Track)).deref track with
        UserFraction := f }) :=
    assign_unit _ (post_unit s h _) track _ hf
  refine update_unit r _ (assign_unit _ h1 track _ ?_) track
  exact deref_unit _ h1 track

theorem change_unit (r : Remote) (s : Run) (h : FractionsOk s) (track : Ref) (f : ℚ)
    (hf : 0 ≤ f ∧ f ≤ 1) : FractionsOk (changeUserFraction r s track f).2 := by
  unfold changeUserFraction
  have h1 : FractionsOk ((postSlackMessage s
      (Msg.changingUserFraction (s.deref track).Track)).assign track
      { (postSlackMessage s (Msg.changingUserFraction (s.deref track).Track)).deref track with
        UserFraction := f }) :=
    assign_unit _ (post_unit s h _) track _ hf
  exact update_unit r _ h1 track

theorem purge_unit (r : Remote) (v : Int) (refs : List Ref) (s : Run) (h : FractionsOk s) :
    FractionsOk (removeVersionCodeFromPlayStoreTracks r v refs s).2 := by
  induction refs generalizing s with
  | nil => exact h
  | cons track rest ih =>
    rw [removeVersionCodeFromPlayStoreTracks]
    obtain ⟨h1, h2, h3, _⟩ := removeScan_spec v (s.deref track).Track (s.deref track).VersionCodes s
    have h4 := congr_unit s _ h h1 h2 h3
    have h5 := update_unit r _ (assign_unit _ h4 track
      { (removeScan v (s.deref track).Track (s.deref track).VersionCodes s).1.deref track with
        VersionCodes := (removeScan v (s.deref track).Track (s.deref track).VersionCodes s).2 }
      (deref_unit _ h4 track)) track
    simp only []
    split
    · rename_i hok
      rw [if_pos hok] at h5
      exact ih _ h5
    · rename_i hok
      rw [if_neg hok] at h5
      exact h5

theorem commitEdit_unit (r : Remote) (s : Run) (h : FractionsOk s) :
    FractionsOk (commitEdit r s) := by
  unfold commitEdit
  have := call_unit s h Call.commit (fun _ _ e => by cases e)
  split
  · exact post_unit _ this _
  · exact post_unit _ this _

theorem ite_unit (res : Bool × Run) (body : Run) (h1 : FractionsOk res.2)
    (h2 : FractionsOk res.2 → FractionsOk body) :
    FractionsOk (if (!res.1) = true then res.2 else body) := by
  split
  · exact h1
  · exact h2 h1

theorem doRollout_unit (r : Remote) (store : List Track) (hs : ∀ t ∈ store, FractionInUnit t)
    (appId : String) (v : Int) (p : Int) (h0 : 0 ≤ p) (h1 : p ≤ 100) :
    FractionsOk (doRollout r store appId v p) := by
  have hf := userFractionOf_unit p h0 h1
  have hi : FractionsOk Run.init := ⟨by simp [Run.init], default_unit, by simp [Run.init]⟩
  have hc : ∀ c : Call, c = Call.insert ∨ c = Call.list →
      ∀ name body, c = Call.update name body → FractionInUnit body := by
    intro c hc name body e
    rcases hc with h | h <;> rw [h] at e <;> cases e
  unfold doRollout loadAndroidPublisherCredentials
  cases r.credentials <;> simp only [Option.isNone, Bool.false_eq_true, if_false, if_true]
  · split
    · exact post_unit _ (post_unit _ hi _) _
    split
    · exact post_unit _ (call_unit _ (post_unit _ hi _) _ (hc _ (Or.inl rfl))) _
    split
    · exact post_unit _ (call_unit _ (call_unit _ (post_unit _ hi _) _ (hc _ (Or.inl rfl))) _
        (hc _ (Or.inr rfl))) _
    have hs0 : FractionsOk (selectTrack
        { ((postSlackMessage Run.init (Msg.okRollingOut appId v p)).call
            Call.insert).call Call.list with listed := store }
        (Run.tracks { ((postSlackMessage Run.init (Msg.okRollingOut appId v p)).call
            Call.insert).call Call.list with listed := store }) "rollout").1 := by
      rw [selectTrack_fst]
      refine ⟨hs, by unfold FractionInUnit; norm_num, ?_⟩
      intro name body hm
      simp [Run.init] at hm
    split
    · refine ite_unit _ _ (removeAll_unit r _ hs0 _) (fun k1 => ?_)
      refine ite_unit _ _ (purge_unit r v _ _ k1) (fun k2 => ?_)
      refine ite_unit _ _ (add_unit r _ k2 _ v _ hf) (fun k3 => ?_)
      exact commitEdit_unit r _ k3
    · refine ite_unit _ _ (change_unit r _ hs0 _ _ hf) (fun k1 => ?_)
      exact commitEdit_unit r _ k1
  · exact post_unit _ (post_unit _ hi _) _
  · exact post_unit _ (post_unit _ hi _) _


theorem userFractionOf_0 : userFractionOf 0 = 0 := by
  have h : (float64OfInt 0).div ⟨100, 0⟩ = ⟨0, 0⟩ := by decide
  rw [userFractionOf, h, Binary64.toRat]
  norm_num

theorem userFractionOf_100 : userFractionOf 100 = 1 := by
  have h : (float64OfInt 100).div ⟨100, 0⟩ = ⟨4503599627370496, -52⟩ := by decide
  rw [userFractionOf, h, Binary64.toRat]
  norm_num

theorem userFractionOf_45 : userFractionOf 45 = 8106479329266893 / 18014398509481984 := by
  have h : (float64OfInt 45).div ⟨100, 0⟩ = ⟨8106479329266893, -54⟩ := by decide
  rw [userFractionOf, h, Binary64.toRat]
  norm_num

theorem userFractionOf_150 : userFractionOf 150 = 3 / 2 := by
  have h : (float64OfInt 150).div ⟨100, 0⟩ = ⟨6755399441055744, -52⟩ := by decide
  rw [userFractionOf, h, Binary64.toRat]
  norm_num

theorem rollout_last_update (r : Remote) (hr : r.AllSucceed) (store : List Track)
    (appId : String) (v : Int) (p : Int) :
    ∃ pre codes, (doRollout r store appId v p).calls =
      pre ++ [Call.update "rollout" ⟨"rollout", userFractionOf p, codes⟩, Call.commit] := by
  by_cases h : ∃ x ∈ store, x.Track = "rollout"
  · obtain ⟨pre, t, post, rfl, ht, hp⟩ := last_split "rollout" store h
    by_cases hv : v ∈ t.VersionCodes
    · refine ⟨[Call.insert, Call.list], t.VersionCodes, ?_⟩
      rw [(doRollout_restage r hr pre post t appId v p ht hp hv).1, ht]
      rfl
    · exact ⟨_, [v], (doRollout_present r hr pre post t appId v p ht hp hv).1⟩
  · exact ⟨_, [v], (doRollout_absent r hr store appId v p (fun x hx e => h ⟨x, hx, e⟩)).1⟩

/-- C9 (as the code behaves): in both branches of a rollout whose remote calls all
succeed, the last update before the commit sends the "rollout" track with the fraction
`float64(p) / 100` computed in binary64.  For a percentage of magnitude below 2 ^ 53
that fraction differs from the rational `p / 100` by at most `|p / 100| / 2 ^ 53`; it
is 0 for 0 and 1 for 100, and for 45 it is the binary64 number
8106479329266893 / 2 ^ 54, within 2 ^ (-56) of 45 / 100. -/
theorem rollout_fraction_binary64 (r : Remote) (hr : r.AllSucceed) (store : List Track)
    (appId : String) (v : Int) (p : Int) :
    (∃ pre codes, (doRollout r store appId v p).calls =
        pre ++ [Call.update "rollout" ⟨"rollout", userFractionOf p, codes⟩, Call.commit]) ∧
      (|p| < 2 ^ 53 → |userFractionOf p - (p : ℚ) / 100| ≤ |(p : ℚ) / 100| / 2 ^ 53) ∧
      userFractionOf 0 = 0 ∧ userFractionOf 100 = 1 ∧
      userFractionOf 45 = 8106479329266893 / 2 ^ 54 ∧
      |userFractionOf 45 - 45 / 100| ≤ 1 / 2 ^ 56 := by
  refine ⟨rollout_last_update r hr store appId v p, userFractionOf_near p, userFractionOf_0,
    userFractionOf_100, ?_, ?_⟩
  · rw [userFractionOf_45]; norm_num
  · rw [userFractionOf_45, abs_le]; constructor <;> norm_num

/-- C9 (as the code behaves) at a concrete input: rolling 7 out to 45 %. -/
theorem rollout_fraction_binary64_witness :
    ∃ pre codes, (doRollout Remote.allOk [⟨"rollout", 1 / 10, [7]⟩] "app" 7 45).calls =
      pre ++ [Call.update "rollout" ⟨"rollout", userFractionOf 45, codes⟩, Call.commit] :=
  (rollout_fraction_binary64 Remote.allOk allOk_succeeds [⟨"rollout", 1 / 10, [7]⟩] "app" 7 45).1

/-- C9 counterexample: rolling out to 45 % writes the fraction
8106479329266893 / 2 ^ 54, which is not the rational 45 / 100. -/
theorem rollout_fraction_inexact :
    (doRollout Remote.allOk [] "app" 7 45).calls =
        [Call.insert, Call.list, Call.update "rollout" ⟨"rollout", 0, []⟩,
          Call.update "rollout" ⟨"rollout", 8106479329266893 / 18014398509481984, [7]⟩,
          Call.commit] ∧
      (8106479329266893 / 18014398509481984 : ℚ) ≠ 45 / 100 := by
  refine ⟨?_, by norm_num⟩
  rw [(doRollout_absent Remote.allOk allOk_succeeds [] "app" 7 45 (by simp)).1, userFractionOf_45]
  rfl

theorem handleRollout_parsed (r : Remote) (store : List Track) (command1 command2 command3 : String)
    (v p : Int) (hv : parseInt64 command2 = some v) (hp : atoi command3 = some p) :
    handleRollout r store command1 command2 command3 = doRollout r store command1 v p := by
  unfold handleRollout
  rw [hv, hp]

/-- C10 (as the code behaves): for a rollout command whose percentage, when it parses,
lies between 0 and 100, run against a snapshot whose fractions lie between 0 and 1,
every track sent to the store has its fraction between 0 and 1, whatever the store
answers. -/
theorem rollout_fraction_range (r : Remote) (store : List Track)
    (hs : ∀ t ∈ store, 0 ≤ t.UserFraction ∧ t.UserFraction ≤ 1)
    (command1 command2 command3 : String)
    (hp : ∀ p, atoi command3 = some p → 0 ≤ p ∧ p ≤ 100) (name : String) (body : Track)
    (hm : Call.update name body ∈ (handleRollout r store command1 command2 command3).calls) :
    0 ≤ body.UserFraction ∧ body.UserFraction ≤ 1 := by
  unfold handleRollout at hm
  cases hv : parseInt64 command2 with
  | none => rw [hv] at hm; simp [Run.init] at hm
  | some v =>
    cases hq : atoi command3 with
    | none => rw [hv, hq] at hm; simp [Run.init] at hm
    | some p =>
      rw [hv, hq] at hm
      exact (doRollout_unit r store hs command1 v p (hp p hq).1 (hp p hq).2).2.2 name body hm

/-- C10 (as the code behaves) at a concrete input: `rollout app 7 to 50%` on rollout
`[7]` at 1/10 sends the fraction 1/2. -/
theorem rollout_fraction_range_witness :
    0 ≤ (⟨"rollout", 1 / 2, [7]⟩ : Track).UserFraction ∧
      (⟨"rollout", 1 / 2, [7]⟩ : Track).UserFraction ≤ 1 := by
  refine rollout_fraction_range Remote.allOk [⟨"rollout", 1 / 10, [7]⟩] ?_ "app" "7" "50" ?_
    "rollout" ⟨"rollout", 1 / 2, [7]⟩ ?_
  · intro t ht
    simp at ht
    rw [ht]
    norm_num
  · intro p hp
    have : atoi "50" = some 50 := by decide
    rw [this] at hp
    cases hp
    decide
  · rw [handleRollout_parsed Remote.allOk _ "app" "7" "50" 7 50 (by decide) (by decide),
      (rollout_store_restage Remote.allOk allOk_succeeds [⟨"rollout", 1 / 10, [7]⟩] "app" 7 50
        ⟨"rollout", 1 / 10, [7]⟩ (by simp) rfl (by simp) (by simp)).1, userFractionOf_50]
    simp

/-- C10 counterexample: the accepted command `rollout app 7 to 150%` sends the
"rollout" track with fraction 3 / 2, which is greater than 1. -/
theorem rollout_fraction_unbounded :
    (handleRollout Remote.allOk [] "app" "7" "150").calls =
        [Call.insert, Call.list, Call.update "rollout" ⟨"rollout", 0, []⟩,
          Call.update "rollout" ⟨"rollout", 3 / 2, [7]⟩, Call.commit] ∧
      ¬ ((⟨"rollout", 3 / 2, [7]⟩ : Track).UserFraction ≤ 1) := by
  refine ⟨?_, by norm_num⟩
  rw [handleRollout_parsed Remote.allOk _ "app" "7" "150" 7 150 (by decide) (by decide),
    (doRollout_absent Remote.allOk allOk_succeeds [] "app" 7 150 (by simp)).1, userFractionOf_150]
  rfl

/-- C2 at a concrete sequence: promote 5 to production, then roll 5 out to 10 %. -/
theorem exclusivity_witness :
    Exclusive (runAll
      [(Remote.allOk, Command.promote "app" 5 "production"),
        (Remote.allOk, Command.rollout "app" 5 10)]
      [⟨"internal", 0, [5]⟩, ⟨"production", 0, [4]⟩]) :=
  (exclusivity
    [(Remote.allOk, Command.promote "app" 5 "production"),
      (Remote.allOk, Command.rollout "app" 5 10)]
    [⟨"internal", 0, [5]⟩, ⟨"production", 0, [4]⟩]
    (by unfold NamesDistinct; decide) (by unfold Exclusive; decide)
    (by
      intro step hstep
      simp at hstep
      rcases hstep with h | h <;> rw [h] <;> exact ⟨allOk_succeeds, rfl⟩) 2).1

/-- C1 at a concrete failure: a promote whose second track update fails records no
commit call. -/
theorem atomicity_under_failure_witness :
    Call.commit ∉ (Command.run
      { Remote.allOk with update := fun k => decide (k ≠ 1) }
      [⟨"internal", 0, [5]⟩, ⟨"production", 0, []⟩]
      (Command.promote "app" 5 "production")).calls :=
  (atomicity_under_failure { Remote.allOk with update := fun k => decide (k ≠ 1) }
    [⟨"internal", 0, [5]⟩, ⟨"production", 0, []⟩]
    (Command.promote "app" 5 "production")).1 (Or.inr ⟨1, by decide, by decide⟩)

/-! ## Rollout re-stage -/

/-- C7 (as the code behaves): when `t` is the track called "rollout" of the snapshot
and `v` is a member of it, a rollout of `v` whose remote calls all succeed makes
exactly one update, which sends the "rollout" track with its version codes unchanged
and its fraction set to `float64(p) / 100` computed in binary64, then commits and
reports "Done."; in the store only the fraction of the "rollout" track changes.  For a
percentage of magnitude below 2 ^ 53 that fraction differs from the rational `p / 100`
by at most `|p / 100| / 2 ^ 53`, and for 50 it is exactly 1 / 2. -/
theorem restage_single_update (r : Remote) (hr : r.AllSucceed) (store : List Track)
    (appId : String) (v : Int) (p : Int) (t : Track) (ht : t ∈ store)
    (hn : t.Track = "rollout") (hu : ∀ u ∈ store, u.Track = "rollout" → u = t)
    (hv : v ∈ t.VersionCodes) :
    (doRollout r store appId v p).calls =
        [Call.insert, Call.list,
          Call.update "rollout" ⟨"rollout", userFractionOf p, t.VersionCodes⟩, Call.commit] ∧
      updateCount (doRollout r store appId v p).calls = 1 ∧
      committed r (doRollout r store appId v p) = true ∧
      (doRollout r store appId v p).msgs.getLast? = some Msg.done ∧
      storeAfter r store (doRollout r store appId v p) =
        store.map (fun x =>
          if x.Track = "rollout" then ⟨x.Track, userFractionOf p, x.VersionCodes⟩ else x) ∧
      (|p| < 2 ^ 53 → |userFractionOf p - (p : ℚ) / 100| ≤ |(p : ℚ) / 100| / 2 ^ 53) ∧
      userFractionOf 50 = 1 / 2 := by
  obtain ⟨h1, h2, h3⟩ := rollout_store_restage r hr store appId v p t ht hn hu hv
  rw [hn] at h1
  refine ⟨h1, ?_, ?_, h2, h3, userFractionOf_near p, userFractionOf_50⟩
  · rw [h1]; rfl
  · exact committed_of_last r hr.2.2.2.2.2 _ (by rw [h1]; rfl)

/-- C7 (as the code behaves) at the scenario of the specification: from rollout `[7]`
at 1/10, rolling 7 out to 50 % ends in rollout `[7]` at 1/2. -/
theorem restage_single_update_witness :
    storeAfter Remote.allOk [⟨"rollout", 1 / 10, [7]⟩]
        (doRollout Remote.allOk [⟨"rollout", 1 / 10, [7]⟩] "app" 7 50) =
      [⟨"rollout", 1 / 2, [7]⟩] := by
  rw [(restage_single_update Remote.allOk allOk_succeeds [⟨"rollout", 1 / 10, [7]⟩] "app" 7 50
    ⟨"rollout", 1 / 10, [7]⟩ (by simp) rfl (by simp) (by simp)).2.2.2.2.1, userFractionOf_50]
  simp

/-- C7 counterexample: re-staging 7, already on rollout, to 45 % sends the "rollout"
track with the fraction 8106479329266893 / 2 ^ 54, so the call made is not the update
that carries the rational 45 / 100. -/
theorem restage_fraction_inexact :
    (doRollout Remote.allOk [⟨"rollout", 1 / 10, [7]⟩] "app" 7 45).calls =
        [Call.insert, Call.list,
          Call.update "rollout" ⟨"rollout", 8106479329266893 / 18014398509481984, [7]⟩,
          Call.commit] ∧
      (doRollout Remote.allOk [⟨"rollout", 1 / 10, [7]⟩] "app" 7 45).calls ≠
        [Call.insert, Call.list, Call.update "rollout" ⟨"rollout", 45 / 100, [7]⟩,
          Call.commit] := by
  have h : (doRollout Remote.allOk [⟨"rollout", 1 / 10, [7]⟩] "app" 7 45).calls =
      [Call.insert, Call.list,
        Call.update "rollout" ⟨"rollout", 8106479329266893 / 18014398509481984, [7]⟩,
        Call.commit] := by
    rw [(rollout_store_restage Remote.allOk allOk_succeeds [⟨"rollout", 1 / 10, [7]⟩] "app" 7 45
      ⟨"rollout", 1 / 10, [7]⟩ (by simp) rfl (by simp) (by simp)).1, userFractionOf_45]
  refine ⟨h, ?_⟩
  rw [h]
  intro e
  simp only [List.cons.injEq, Call.update.injEq, Track.mk.injEq, true_and, and_true] at e
  norm_num at e

end PublisherBot
